import Mathlib

/-!
# Verification of the sf-seeder plan engine

Shallow embedding of the plan-graph resolution, token-expansion and migration
remapping code of the `sf-seeder` repository, together with proofs settling the
frozen claims about its specification.

JavaScript `Map`s and plain objects are modelled as association lists in
insertion order (`jget` / `jset` / `jdel`), and `Set`s as duplicate-free lists
in insertion order (`sadd`).  JavaScript string primitives (`startsWith`,
`slice(2,-1)`, `split`, global `replace`) are modelled as explicit functions on
the underlying character lists.
-/

namespace SfSeeder

/-- `Map.get` / object property read on a string-keyed association list:
returns the value of the first (unique) entry with the given key. -/
def jget {β : Type} (m : List (String × β)) (k : String) : Option β :=
  match m with
  | [] => none
  | p :: rest => if p.1 = k then some p.2 else jget rest k

/-- `Map.set` / object property write: updates the entry in place if the key
exists, otherwise appends a new entry (JS `Map` insertion-order semantics). -/
def jset {β : Type} (m : List (String × β)) (k : String) (v : β) : List (String × β) :=
  match m with
  | [] => [(k, v)]
  | p :: rest => if p.1 = k then (k, v) :: rest else p :: jset rest k v

/-- `Map.delete` / JS `delete`: removes the entry with the given key. -/
def jdel {β : Type} (m : List (String × β)) (k : String) : List (String × β) :=
  m.filter (fun p => p.1 ≠ k)

/-- `Set.add`: appends the element unless it is already present. -/
def sadd (s : List String) (x : String) : List String :=
  if x ∈ s then s else s ++ [x]

/-- A JSON field value of a seeding plan: `string | number | boolean | null`
(types/index.ts, `FieldValue`).  Numbers are modelled as integers; none of the
verified code inspects numeric values beyond `typeof` checks. -/
inductive FieldValue where
  | str (s : String)
  | num (n : Int)
  | boolean (b : Bool)
  | null
  deriving DecidableEq, Repr

/-- One step of a seeding plan (types/index.ts, `SeedingStep`).  The `fields`
object is an association list in declaration order. -/
structure SeedingStep where
  sobject : String
  count : Nat
  saveRefs : Bool
  fields : List (String × FieldValue)
  deriving DecidableEq, Repr

/-- JS `s.slice(2, -1)`: characters from index 2 up to (excluding) the last. -/
def sliceInner (s : String) : String :=
  ⟨(s.data.drop 2).dropLast⟩

/-- JS `s.startsWith(p)`. -/
def jsStartsWith (s p : String) : Bool :=
  p.data.isPrefixOf s.data

/-- JS `s.endsWith(p)`. -/
def jsEndsWith (s p : String) : Bool :=
  p.data.isSuffixOf s.data

/-- JS `s.split('.')[0]`: the longest prefix not containing `'.'`. -/
def headOfSplitDot (s : String) : String :=
  ⟨s.data.takeWhile (fun c => c ≠ '.')⟩

/-- The reference-token parser used by the graph builder (generate.ts
lines 100-106): a string field value `"@{Obj.Field}"` yields the target object
type `Obj`; the target must be non-empty (JS truthiness of `refObj`). -/
def parseRefTarget (v : FieldValue) : Option String :=
  match v with
  | .str s =>
    if jsStartsWith s "@\x7b" && jsEndsWith s "\x7d" then
      let refObj := headOfSplitDot (sliceInner s)
      if refObj ≠ "" then some refObj else none
    else none
  | _ => none

/-- The two lookup structures built by `getSmartOrderedPlan` (generate.ts
lines 94-95): `dep` is `sObjectDepGraph` (object type → (field → target)) and
`dependents` is `depSobjectGraph` (target → set of dependent object types). -/
structure DepGraphs where
  dep : List (String × List (String × String))
  dependents : List (String × List String)
  deriving DecidableEq, Repr

/-- The `deps` map accumulated for one step (generate.ts lines 98-108):
field name → referenced object type, for every reference-token field. -/
def stepDeps (fields : List (String × FieldValue)) : List (String × String) :=
  fields.foldl
    (fun m fv =>
      match parseRefTarget fv.2 with
      | some refObj => jset m fv.1 refObj
      | none => m) []

/-- The `depSobjectGraph` updates performed while scanning one step
(generate.ts lines 104-105): for every reference-token field, add the step's
object type to the dependent set of the referenced type. -/
def stepAddDependents (sobj : String) (fields : List (String × FieldValue))
    (d : List (String × List String)) : List (String × List String) :=
  fields.foldl
    (fun d fv =>
      match parseRefTarget fv.2 with
      | some refObj => jset d refObj (sadd ((jget d refObj).getD []) sobj)
      | none => d) d

/-- The graph-building loop of `getSmartOrderedPlan` (generate.ts
lines 97-110): scans the steps in plan order; a step's `deps` map is recorded
under its object type only when non-empty. -/
def buildGraphsAux (plan : List SeedingStep) (g : DepGraphs) : DepGraphs :=
  match plan with
  | [] => g
  | step :: rest =>
    let deps := stepDeps step.fields
    buildGraphsAux rest
      { dep := if deps.isEmpty then g.dep else jset g.dep step.sobject deps
        dependents := stepAddDependents step.sobject step.fields g.dependents }

/-- The Reference Graph Builder: both dependency structures of
`getSmartOrderedPlan` built from an input plan. -/
def buildGraphs (plan : List SeedingStep) : DepGraphs :=
  buildGraphsAux plan ⟨[], []⟩

/-- `originalPlan.find(...)` followed by a mutation: applies `f` to the first
element satisfying `p`, leaving all other elements untouched. -/
def updateFirst {α : Type} (l : List α) (p : α → Bool) (f : α → α) : List α :=
  match l with
  | [] => []
  | x :: xs => if p x then f x :: xs else x :: updateFirst xs p f

/-- One selected cycle removal: source object type, field name, target object
type (the decoded `from -> field -> to -> Lookup` choice string returned by the
interactive prompt, already `trim`med and `split('->')`). -/
abbrev Removal := String × String × String

/-- Deleting the selected edge's field from the owning step (generate.ts
lines 120-121): `delete plan.fields[field]` on the *first* step whose
`sobject` equals the edge's source. -/
def removePlanField (plan : List SeedingStep) (src fld : String) : List SeedingStep :=
  updateFirst plan (fun st => st.sobject == src)
    (fun st => { st with fields := jdel st.fields fld })

/-- One iteration of the cycle-removal loop of `getSmartOrderedPlan`
(generate.ts lines 114-122): delete the field from the source's `deps` map,
remove the source from the target's dependent set (dropping the set if it
becomes empty), and delete the field from the owning plan step. -/
def applyRemoval (plan : List SeedingStep) (g : DepGraphs) (r : Removal) :
    List SeedingStep × DepGraphs :=
  let src := r.1
  let fld := r.2.1
  let tgt := r.2.2
  let dep :=
    match jget g.dep src with
    | some deps => jset g.dep src (jdel deps fld)
    | none => g.dep
  let dependents :=
    match jget g.dependents tgt with
    | some s => jset g.dependents tgt (s.filter (fun x => x ≠ src))
    | none => g.dependents
  let dependents :=
    match jget dependents tgt with
    | some s => if s.length = 0 then jdel dependents tgt else dependents
    | none => dependents
  (removePlanField plan src fld, ⟨dep, dependents⟩)

/-- The whole cycle-removal loop applied to the selected removals in order. -/
def applyRemovals (plan : List SeedingStep) (g : DepGraphs) :
    List Removal → List SeedingStep × DepGraphs
  | [] => (plan, g)
  | r :: rest =>
    let (plan', g') := applyRemoval plan g r
    applyRemovals plan' g' rest

/-- The `saveRefs` assignment loop (generate.ts lines 124-126):
`step.saveRefs = depSobjectGraph.has(step.sobject)`. -/
def assignSaveRefs (plan : List SeedingStep) (g : DepGraphs) : List SeedingStep :=
  plan.map (fun st => { st with saveRefs := (jget g.dependents st.sobject).isSome })

/-- The mutable state of the depth-first traversal (generate.ts
lines 128-130): permanently visited nodes, temporarily marked nodes, and the
output order. -/
structure TopoState where
  visited : List String
  temp : List String
  sorted : List String
  deriving DecidableEq, Repr

/-- The dependency targets iterated by `visit` (generate.ts lines 138-141):
`(sObjectDepGraph.get(node) ?? new Set()).values()`. -/
def edgeTargets (g : List (String × List (String × String))) (node : String) :
    List String :=
  ((jget g node).getD []).map (fun d => d.2)

/-- The recursive `visit` of `getSmartOrderedPlan` (generate.ts lines 132-150),
processing a work list of nodes in order (both the dependency lists and the
top-level key loop are such lists).  A node in the temporary mark set raises
the `Cyclic dependency detected` error.  Recursion is bounded by explicit
fuel, decremented once per work-list item; along any execution path each
consumed item is either a top-level key or an edge of a freshly opened node,
so fuel exceeding the number of keys plus edges is never exhausted. -/
def topoVisit (g : List (String × List (String × String))) :
    Nat → List String → TopoState → Except String TopoState
  | _, [], st => .ok st
  | 0, _ :: _, _ => .error "out of fuel"
  | n + 1, node :: rest, st =>
    if st.temp.contains node then
      .error ("Cyclic dependency detected with " ++ node)
    else if st.visited.contains node then
      topoVisit g n rest st
    else
      match topoVisit g n (edgeTargets g node)
          { st with temp := sadd st.temp node } with
      | .error e => .error e
      | .ok st2 =>
        topoVisit g n rest
          ⟨sadd st2.visited node, st2.temp.filter (fun x => x ≠ node),
            st2.sorted ++ [node]⟩

/-- The plan and graphs after the cycle-removal loop has run. -/
def planAfterResolution (plan : List SeedingStep) (removals : List Removal) :
    List SeedingStep :=
  (applyRemovals plan (buildGraphs plan) removals).1

/-- The dependency structures after the cycle-removal loop has run. -/
def graphAfterResolution (plan : List SeedingStep) (removals : List Removal) :
    DepGraphs :=
  (applyRemovals plan (buildGraphs plan) removals).2

/-- The plan state right after the `saveRefs` assignment loop (generate.ts
line 126), before the topological traversal runs. -/
def planWithSaveRefs (plan : List SeedingStep) (removals : List Removal) :
    List SeedingStep :=
  assignSaveRefs (planAfterResolution plan removals) (graphAfterResolution plan removals)

/-- Ample fuel for the depth-first traversal of a dependency map: number of
keys plus total number of edges plus one. -/
def topoFuel (dep : List (String × List (String × String))) : Nat :=
  dep.length + (dep.map (fun p => p.2.length)).sum + 1

/-- The Topological Sequencer `getSmartOrderedPlan` (generate.ts
lines 93-157).  The interactive cycle selection is the external collaborator:
the selected removals are passed in as an argument.  After building the
graphs, applying the removals and assigning `saveRefs`, the traversal visits
every key of the dependency map and the sorted object-type names are mapped
back to plan steps (`find`) and missing ones filtered out. -/
def getSmartOrderedPlan (originalPlan : List SeedingStep) (removals : List Removal) :
    Except String (List SeedingStep) :=
  let g := graphAfterResolution originalPlan removals
  let plan2 := planWithSaveRefs originalPlan removals
  match topoVisit g.dep (topoFuel g.dep) (g.dep.map (fun p => p.1)) ⟨[], [], []⟩ with
  | .error e => .error e
  | .ok st => .ok (st.sorted.filterMap (fun name => plan2.find? (fun p => p.sobject == name)))

/-- The pure cycle-detection part of `detectCyclesAndPrompt` (generate.ts
lines 166-180): an edge `sObject --field--> refObj` is cyclic when `refObj`
has some dependent and `refObj` is among `sObject`'s dependents. -/
def detectCyclicEdges (g : DepGraphs) : List Removal :=
  g.dep.foldl
    (fun acc p =>
      acc ++ p.2.filterMap (fun fv =>
        if fv.2 ≠ "" && (jget g.dependents fv.2).isSome
            && ((jget g.dependents p.1).getD []).contains fv.2 then
          some (p.1, fv.1, fv.2)
        else none)) []

/-- Number of edges from `a` to `b` recorded in a dependency map. -/
def edgesFromTo (dep : List (String × List (String × String))) (a b : String) : Nat :=
  ((jget dep a).getD []).countP (fun p => p.2 == b)

/-- Total number of edges between the unordered pair `{a, b}`. -/
def edgesBetween (dep : List (String × List (String × String))) (a b : String) : Nat :=
  edgesFromTo dep a b + edgesFromTo dep b a

/-- The pair `{a, b}` is mutually cyclic: an edge in each direction. -/
def cyclicPairB (dep : List (String × List (String × String))) (a b : String) : Bool :=
  decide (0 < edgesFromTo dep a b) && decide (0 < edgesFromTo dep b a)

/-! ## The synthetic-data generator namespace and the token expander (run.ts, faker.ts) -/

/-- A JavaScript value of the generator namespace walked by
`resolveFakerExpression` (faker.ts lines 10-42).  `vFun r` is a nullary
generator function that returns `r` when invoked.  Property access on
non-object values is modelled as `undefined` (prototype members are not part
of the generator namespace). -/
inductive JSVal where
  | vStr (s : String)
  | vNum (n : Int)
  | vBool (b : Bool)
  | vNull
  | vUndefined
  | vFun (ret : JSVal)
  | vObj (props : List (String × JSVal))
  deriving Repr

/-- JS property read `result[part]` on a namespace value. -/
def fakerGet (v : JSVal) (part : String) : JSVal :=
  match v with
  | .vObj props =>
    match jget props part with
    | some w => w
    | none => .vUndefined
  | _ => .vUndefined

/-- JS `String(result)` coercion for the non-string non-number results of a
generator walk. -/
def jsToString (v : JSVal) : String :=
  match v with
  | .vStr s => s
  | .vNum n => toString n
  | .vBool b => if b then "true" else "false"
  | .vNull => "null"
  | .vUndefined => "undefined"
  | .vFun _ => "function"
  | .vObj _ => "[object Object]"

/-- The path walk of `resolveFakerExpression` (faker.ts lines 18-31): read the
property, invoke it if it is a function, warn and bail out with no value when
the result is `undefined` or `null`.  Returns the final value (or `none`) and
the warnings emitted. -/
def fakerWalk (cur : JSVal) (parts : List String) (expr : String) :
    Option JSVal × List String :=
  match parts with
  | [] => (some cur, [])
  | part :: rest =>
    let next :=
      match fakerGet cur part with
      | .vFun r => r
      | w => w
    match next with
    | .vUndefined => (none, ["Invalid faker path: " ++ expr])
    | .vNull => (none, ["Invalid faker path: " ++ expr])
    | w => fakerWalk w rest expr

/-- JS `expression.split('.')` on the character list (keeping empty pieces). -/
def splitDot (l : List Char) : List String :=
  match l with
  | [] => [""]
  | c :: rest =>
    if c = '.' then "" :: splitDot rest
    else
      match splitDot rest with
      | s :: ss => (⟨c :: s.data⟩ : String) :: ss
      | [] => [⟨[c]⟩]

/-- `resolveFakerExpression` (faker.ts lines 10-42): values delimited as
`#{faker.<dotted path>}` are resolved by walking the generator namespace `ns`;
all other strings yield `null` (`none`) silently.  The final value is returned
as a string or number, other terminals via `String(...)`. -/
def resolveFakerExpression (ns : JSVal) (value : String) :
    Option FieldValue × List String :=
  if !(jsStartsWith value "#\x7bfaker." && jsEndsWith value "\x7d") then (none, [])
  else
    let expression : String := ⟨(value.data.drop 8).dropLast⟩
    match fakerWalk ns (splitDot expression.data) expression with
    | (none, ws) => (none, ws)
    | (some v, ws) =>
      match v with
      | .vStr s => (some (.str s), ws)
      | .vNum n => (some (.num n), ws)
      | other => (some (.str (jsToString other)), ws)

/-- The counter token `#{counter}` as a character list. -/
def counterTok : List Char := ['#', '{', 'c', 'o', 'u', 'n', 't', 'e', 'r', '}']

/-- JS `value.replace(/#\{counter\}/g, rep)`: non-overlapping left-to-right
replacement of every occurrence of the counter token.  Fuel is decremented
once per character examined, so fuel equal to the list length is exact. -/
def substCounterList (rep : List Char) : Nat → List Char → List Char
  | _, [] => []
  | 0, l => l
  | n + 1, c :: cs =>
    if counterTok.isPrefixOf (c :: cs) then
      rep ++ substCounterList rep n (cs.drop (counterTok.length - 1))
    else
      c :: substCounterList rep n cs

/-- The counter substitution of `processValue` (run.ts line 167):
`value.replace(/#\{counter\}/g, (counter + 1).toString())`. -/
def substCounter (s : String) (counter : Nat) : String :=
  ⟨substCounterList (toString (counter + 1)).data s.data.length s.data⟩

/-- A bulk-create result (types/index.ts, `SuccessResult`).  The identifier is
`Option String`: `none` models a missing / non-string `id` (the code guards
with `typeof result.id === 'string'` and prints `err.id ?? 'N/A'`). -/
structure SuccessResult where
  success : Bool
  id : Option String
  errors : List String
  deriving DecidableEq, Repr

/-- `isSuccess` (run.ts lines 19-21):
`result.success === true && typeof result.id === 'string'`. -/
def isSuccess (result : SuccessResult) : Bool :=
  result.success && result.id.isSome

/-- The reference key of a token: `resolved.slice(2, -1).split('.')[0]`
(run.ts line 171). -/
def refKeyOf (s : String) : String :=
  headOfSplitDot (sliceInner s)

/-- The field value produced from a retained record's identifier
(`return random.id`, run.ts line 176); a missing identifier is rendered as
null. -/
def idValue (o : Option String) : FieldValue :=
  match o with
  | some i => .str i
  | none => .null

/-- The Token Expander `processValue` (run.ts lines 155-184).  `ns` is the
generator namespace, `randIdx` the value of `Math.floor(Math.random() *
refList.length)` supplied by the ambient random source (always `< length`
when the list is non-empty; larger indices wrap).  Returns the resolved value
together with the warnings emitted on the `this.warn` channel. -/
def processValue (ns : JSVal) (value : FieldValue) (counter : Nat) (isDryRun : Bool)
    (referenceMap : List (String × List SuccessResult)) (randIdx : Nat) :
    FieldValue × List String :=
  match value with
  | .str s =>
    match resolveFakerExpression ns s with
    | (some fakerResolved, ws) => (fakerResolved, ws)
    | (none, ws) =>
      let resolved := substCounter s counter
      if !isDryRun && jsStartsWith resolved "@\x7b" && jsEndsWith resolved "\x7d" then
        let refKey := refKeyOf resolved
        match jget referenceMap refKey with
        | some refList =>
          if h : 0 < refList.length then
            let random := refList.get ⟨randIdx % refList.length, Nat.mod_lt _ h⟩
            (idValue random.id, ws)
          else
            (.null, ws ++ ["Reference not found for key: " ++ refKey ++ ". Returning null."])
        | none =>
          (.null, ws ++ ["Reference not found for key: " ++ refKey ++ ". Returning null."])
      else
        (.str resolved, ws)
  | v => (v, [])

/-- The result-classification and reference-retention portion of `processStep`
(run.ts lines 130-148): partition the bulk-load results with `isSuccess` and,
when the step retains references, store the successes under the step's object
type.  Returns the updated reference map, the successes and the failures. -/
def processStepResults (step : SeedingStep) (results : List SuccessResult)
    (referenceMap : List (String × List SuccessResult)) :
    List (String × List SuccessResult) × List SuccessResult × List SuccessResult :=
  let successes := results.filter isSuccess
  let failures := results.filter (fun r => !isSuccess r)
  let referenceMap' :=
    if step.saveRefs then jset referenceMap step.sobject successes else referenceMap
  (referenceMap', successes, failures)

/-! ## The cross-system migration driver (seeder data migrate command) -/

/-- One entry of a migration plan (types/index.ts, `MigrationObject`); the
operation/externalId knobs are irrelevant to the verified driver. -/
structure MigrationObject where
  sobject : String
  query : Option String
  deriving DecidableEq, Repr

/-- Schema description of one field, as consumed by the migration driver. -/
structure FieldDescribe where
  name : String
  updateable : Bool
  calculated : Bool
  custom : Bool
  fieldType : String
  referenceTo : Option (List String)
  deriving DecidableEq, Repr

/-- Schema description of one object type; `keyPfx` is the 3-character
identifier type `keyPrefix` of the describe result (`none` models `null`). -/
structure DescribeResult where
  fields : List FieldDescribe
  keyPfx : Option String
  deriving DecidableEq, Repr

/-- An insert result of `targetConn.insert`. -/
structure InsertResult where
  success : Bool
  id : String
  errors : List String
  deriving DecidableEq, Repr

/-- JS `String.prototype.trim()` (whitespace at both ends). -/
def jsTrim (s : String) : String :=
  ⟨(s.data.dropWhile Char.isWhitespace).reverse.dropWhile Char.isWhitespace |>.reverse⟩

/-- Splitting a character list on a non-empty separator, keeping empty
pieces; fuel is decremented once per character examined. -/
def splitSepList (sep : List Char) : Nat → List Char → List (List Char)
  | _, [] => [[]]
  | 0, l => [l]
  | n + 1, c :: cs =>
    if sep.isPrefixOf (c :: cs) then
      [] :: splitSepList sep n (cs.drop (sep.length - 1))
    else
      match splitSepList sep n cs with
      | piece :: rest => (c :: piece) :: rest
      | [] => [[c]]

/-- JS `s.split(sep)` for a non-empty separator string, keeping empty pieces. -/
def jsSplit (sep : String) (s : String) : List String :=
  (splitSepList sep.data s.data.length s.data).map (fun l => ⟨l⟩)

/-- The `soql.match(/SELECT\s+(.+?)\s+FROM\s+(\w+)/i)` of `sanitizeSOQLQuery`,
modelled for the canonical single-space uppercase query shape
`SELECT <field list> FROM <name>`: returns the raw field list and the object
name (the leading word characters after the first ` FROM `). -/
def parseSOQL (soql : String) : Option (String × String) :=
  match jsSplit " FROM " soql with
  | fieldPart :: rest :: _ =>
    if jsStartsWith fieldPart "SELECT " then
      let fieldListRaw : String := ⟨fieldPart.data.drop 7⟩
      let sobject : String := ⟨rest.data.takeWhile (fun c => c.isAlphanum || c = '_')⟩
      if fieldListRaw ≠ "" && sobject ≠ "" then some (fieldListRaw, sobject) else none
    else none
  | _ => none

/-- The reason logged for a skipped field (part_001 lines 157-162). -/
def skipReason (info : Option FieldDescribe) : String :=
  match info with
  | some i => if i.calculated then "Formula field"
              else if i.custom then "Custom non-editable" else "Standard non-editable"
  | none => "Standard non-editable"

/-- `sanitizeSOQLQuery` (part_001 lines 128-170): parse the query, describe
the object against the *target* schema (`describeTarget`, which may throw),
keep only updateable non-calculated fields, log a skip reason for the others,
and rebuild the query.  Returns `(cleanedQuery, keptFields, skipLogLines)`. -/
def sanitizeSOQLQuery (describeTarget : String → Except String DescribeResult)
    (soql : String) : Except String (String × List String × List String) :=
  match parseSOQL soql with
  | none => .error ("Invalid SOQL: " ++ soql)
  | some (fieldListRaw, sobject) =>
    match describeTarget sobject with
    | .error e => .error e
    | .ok describe =>
      let fields := (jsSplit "," fieldListRaw).map jsTrim
      let editable :=
        (describe.fields.filter (fun f => f.updateable && !f.calculated)).map (fun f => f.name)
      let kept := fields.filter (fun f => editable.contains f)
      let skippedLogs := (fields.filter (fun f => !editable.contains f)).map
        (fun f => "[!] Skipped field \x22" ++ f ++ "\x22 on \x22" ++ sobject ++ "\x22 - "
          ++ skipReason (describe.fields.find? (fun fd => fd.name == f)))
      .ok ("SELECT " ++ String.intercalate ", " kept ++ " FROM " ++ sobject, kept, skippedLogs)

/-- `getReferenceFieldMap` (part_001 lines 172-191): for every kept field that
is reference-typed on the *source* schema with a declared `referenceTo` array,
record its candidate target types. -/
def getReferenceFieldMap (describeSource : String → Except String DescribeResult)
    (sobject : String) (keptFields : List String) :
    Except String (List (String × List String)) :=
  match describeSource sobject with
  | .error e => .error e
  | .ok d =>
    .ok (keptFields.foldl
      (fun m fieldName =>
        match d.fields.find? (fun f => f.name == fieldName) with
        | some fm =>
          if fm.fieldType == "reference" then
            match fm.referenceTo with
            | some l => jset m fieldName l
            | none => m
          else m
        | none => m) [])

/-- The target-type disambiguation of `resolveReferencesWithFieldMap`
(part_001 lines 205-221): the single candidate when there is exactly one,
otherwise the first candidate whose (cached) describe type code equals the
value's first three characters.  ` keyPfxOf` is the describe oracle giving
each candidate object type's identifier type code. -/
def pickTarget ( keyPfxOf : String → Option String) (possibleObjects : List String)
    (s : String) : Option String :=
  if possibleObjects.length = 1 then possibleObjects.head?
  else
    let idPfx : String := ⟨s.data.take 3⟩
    possibleObjects.find? (fun obj => keyPfxOf obj == some idPfx)

/-- The per-field body of `resolveReferencesWithFieldMap` (part_001
lines 199-228).  A field is considered only when its value is a truthy string
starting with `'0'`; the target type is resolved by `pickTarget`; the field is
rewritten only when the resolved type's identifier map holds a truthy
(non-empty) new identifier for the value. -/
def resolveRefField ( keyPfxOf : String → Option String)
    (referenceFieldMap : List (String × List String))
    (idMapBySObject : List (String × List (String × String)))
    (fv : String × FieldValue) : String × FieldValue :=
  match fv.2 with
  | .str s =>
    if s = "" || !jsStartsWith s "0" then fv
    else
      match jget referenceFieldMap fv.1 with
      | none => fv
      | some possibleObjects =>
        match pickTarget keyPfxOf possibleObjects s with
        | none => fv
        | some refObj =>
          match jget idMapBySObject refObj with
          | none => fv
          | some idMap =>
            match jget idMap s with
            | some mappedId => if mappedId ≠ "" then (fv.1, .str mappedId) else fv
            | none => fv
  | _ => fv

/-- `resolveReferencesWithFieldMap` (part_001 lines 193-230): rewrite every
field of the record through `resolveRefField` (the loop writes only the field
it is visiting, so the iteration is a pointwise map). -/
def resolveReferencesWithFieldMap ( keyPfxOf : String → Option String)
    (record : List (String × FieldValue))
    (referenceFieldMap : List (String × List String))
    (idMapBySObject : List (String × List (String × String))) :
    List (String × FieldValue) :=
  record.map (resolveRefField keyPfxOf referenceFieldMap idMapBySObject)

/-- The remote transport of the migration driver: target-schema describe,
source-schema describe, source query and target bulk insert.  Each call can
throw (`Except.error` carries the exception message); the per-record describe
lookups of the reference resolver are exposed as the total ` keyPfxOf` oracle
derived from `describeSource`. -/
structure Transport where
  describeTarget : String → Except String DescribeResult
  describeSource : String → Except String DescribeResult
  query : String → Except String (List (List (String × FieldValue)))
  insert : String → List (List (String × FieldValue)) → Except String (List InsertResult)

/-- The type-code oracle used by the reference resolver, derived from the
(cached) source describes; a failing describe yields no code. -/
def Transport.keyPfxOf (t : Transport) (obj : String) : Option String :=
  match t.describeSource obj with
  | .ok d => d.keyPfx
  | .error _ => none

/-- An observable log line of the migration run. -/
inductive MigEvent where
  | validating (sobject : String)
  | skipLog (line : String)
  | retrieved (sobject : String) (n : Nat)
  | inserting (n : Nat) (sobject : String)
  | failedInsert (sobject oldId : String)
  | insertedSummary (succ total : Nat) (sobject : String)
  | errorAbort (message : String)
  deriving DecidableEq, Repr

/-- The `Id` of a source record, `record['Id'] as string`. -/
def recordId (record : List (String × FieldValue)) : String :=
  match jget record "Id" with
  | some (.str s) => s
  | _ => ""

/-- The try-body of one iteration of the migration loop (part_001
lines 72-119): validate the query, sanitize it against the target schema,
compute the reference field map, query the source, clone each record without
`Id`/`attributes` and remap its references, insert into the target, fold the
results into the old→new identifier map, and store that map under the object
type.  Returns the log events together with the updated `idMapBySObject` (or
the thrown message). -/
def processEntry (t : Transport)
    (idMapBySObject : List (String × List (String × String)))
    (obj : MigrationObject) :
    List MigEvent × Except String (List (String × List (String × String))) :=
  let evs0 := [MigEvent.validating obj.sobject]
  match obj.query with
  | none => (evs0, .error "Query must be defined in the plan.")
  | some q =>
    match sanitizeSOQLQuery t.describeTarget q with
    | .error e => (evs0, .error e)
    | .ok (cleanedQuery, keptFields, skipLines) =>
      let evs1 := evs0 ++ skipLines.map MigEvent.skipLog
      match getReferenceFieldMap t.describeSource obj.sobject keptFields with
      | .error e => (evs1, .error e)
      | .ok referenceFieldMap =>
        match t.query cleanedQuery with
        | .error e => (evs1, .error e)
        | .ok records =>
          let evs2 := evs1 ++ [MigEvent.retrieved obj.sobject records.length]
          let sourceToInsert := records.map (fun record =>
            resolveReferencesWithFieldMap t.keyPfxOf
              (jdel (jdel record "Id") "attributes") referenceFieldMap idMapBySObject)
          let idMap0 := records.foldl (fun m record => jset m (recordId record) "") []
          let evs3 := evs2 ++ [MigEvent.inserting sourceToInsert.length obj.sobject]
          match t.insert obj.sobject sourceToInsert with
          | .error e => (evs3, .error e)
          | .ok insertResults =>
            let oldIds := idMap0.map (fun p => p.1)
            let step : List (String × String) × List MigEvent := insertResults.enum.foldl
              (fun (acc : List (String × String) × List MigEvent) ri =>
                let oldId := (oldIds.get? ri.1).getD ""
                if ri.2.success then (jset acc.1 oldId ri.2.id, acc.2)
                else (acc.1, acc.2 ++ [MigEvent.failedInsert obj.sobject oldId]))
              (idMap0, [])
            let successCount := (insertResults.filter (fun r => r.success)).length
            (evs3 ++ step.2
              ++ [MigEvent.insertedSummary successCount sourceToInsert.length obj.sobject],
             .ok (jset idMapBySObject obj.sobject step.1))

/-- `runMigrationPlan` (part_001 lines 69-125).  Each plan entry runs inside a
`try`; the `catch` reports the failure through the command error channel
(`this.error`, which raises an `SfError` that terminates the command), so a
step-level exception ends the run: the remaining entries are not processed. -/
def runMigrationPlan (t : Transport) :
    List MigrationObject → List (String × List (String × String)) →
    List MigEvent × Except String Unit
  | [], _ => ([], .ok ())
  | obj :: rest, idMaps =>
    match processEntry t idMaps obj with
    | (evs, .ok idMaps') =>
      let (evs', res) := runMigrationPlan t rest idMaps'
      (evs ++ evs', res)
    | (evs, .error e) =>
      (evs ++ [MigEvent.errorAbort ("❌ Error with " ++ obj.sobject ++ ": " ++ e)],
       .error ("❌ Error with " ++ obj.sobject ++ ": " ++ e))

/-! ## Specification-side predicates and auxiliary notions used in the claims -/

/-- The success classification as worded by the specification (for comparison
with `isSuccess`): success flag true *and a non-empty* identifier string. -/
def specIsSuccess (r : SuccessResult) : Bool :=
  r.success &&
    (match r.id with
     | some s => s ≠ ""
     | none => false)

/-- Membership in a dependent set of the `depSobjectGraph` structure. -/
def memDependents (d : List (String × List String)) (t s : String) : Bool :=
  ((jget d t).getD []).contains s

/-- Every dependent set recorded in the `depSobjectGraph` structure is
non-empty (entries are created with at least one member and deleted as soon
as they become empty). -/
def depsNonempty (d : List (String × List String)) : Prop :=
  ∀ t l, jget d t = some l → l ≠ []

/-- Some step named `s` carries a reference-token field targeting `t`. -/
def dependsOnB (plan : List SeedingStep) (s t : String) : Bool :=
  plan.any (fun st => st.sobject == s
    && st.fields.any (fun fv => parseRefTarget fv.2 == some t))

/-- Some step *other than* the one named `t` carries a surviving
reference-token field targeting `t` (the right-hand side of the `saveRefs`
claim). -/
def targetedByOther (plan : List SeedingStep) (t : String) : Bool :=
  plan.any (fun st => st.sobject ≠ t
    && st.fields.any (fun fv => parseRefTarget fv.2 == some t))

/-- Well-formedness of a sequence of selected cycle removals with respect to
the evolving plan: each selected `(src, fld, tgt)` names an existing
reference edge (the step named `src` has field `fld` holding a token
targeting `tgt`), and that field is the *only* edge from `src` to `tgt`
(no parallel edge in the same direction). -/
inductive ValidRemovals : List SeedingStep → List Removal → Prop
  | nil (plan : List SeedingStep) : ValidRemovals plan []
  | cons (plan : List SeedingStep) (src fld tgt : String) (rest : List Removal)
      (hexists : ∃ st ∈ plan, st.sobject = src ∧
        ∃ v, jget st.fields fld = some v ∧ parseRefTarget v = some tgt)
      (honly : ∀ st ∈ plan, st.sobject = src →
        ∀ fv ∈ st.fields, parseRefTarget fv.2 = some tgt → fv.1 = fld)
      (hrest : ValidRemovals (removePlanField plan src fld) rest) :
      ValidRemovals plan ((src, fld, tgt) :: rest)

/-! ## Concrete fixtures used by the counterexamples and witnesses -/

/-- A seeding step with no reference-token field at all. -/
def accountOnlyStep : SeedingStep :=
  ⟨"Account", 1, false, [("Name", FieldValue.str "Acme")]⟩

/-- A step whose `AccountId` field references `Account`. -/
def contactStep : SeedingStep :=
  ⟨"Contact", 2, false,
    [("LastName", FieldValue.str "User-#{counter}"),
     ("AccountId", FieldValue.str "@{Account.Id}")]⟩

/-- Step `A` with *two parallel* reference fields targeting `B`. -/
def parStepA : SeedingStep :=
  ⟨"A", 1, false, [("F1", FieldValue.str "@{B.Id}"), ("F2", FieldValue.str "@{B.Id}")]⟩

/-- Step `B` with one reference field back to `A` (closing the cycle). -/
def parStepB : SeedingStep :=
  ⟨"B", 1, false, [("G", FieldValue.str "@{A.Id}")]⟩

/-- Step `C` of a simple two-object cycle. -/
def simpleStepC : SeedingStep :=
  ⟨"C", 1, false, [("F", FieldValue.str "@{D.Id}")]⟩

/-- Step `D` of a simple two-object cycle. -/
def simpleStepD : SeedingStep :=
  ⟨"D", 1, false, [("G", FieldValue.str "@{C.Id}")]⟩

/-- A small generator namespace: `company.name` resolves, nothing else. -/
def nsFixture : JSVal :=
  .vObj [("company", .vObj [("name", .vFun (.vStr "Acme Corp"))])]

/-- A describe result with a single editable `Name` field. -/
def descNameOnly : DescribeResult :=
  ⟨[⟨"Name", true, false, false, "string", none⟩], some "001"⟩

/-- A transport whose source query always throws a transport exception. -/
def failingQueryTransport : Transport :=
  ⟨fun _ => .ok descNameOnly, fun _ => .ok descNameOnly,
   fun _ => .error "Connection timed out", fun _ _ => .ok []⟩

/-- First migration plan entry. -/
def migA : MigrationObject := ⟨"A", some "SELECT Name FROM A"⟩

/-- Second migration plan entry. -/
def migB : MigrationObject := ⟨"B", some "SELECT Name FROM B"⟩

/-- A reference table with two retained `Account` successes. -/
def refMapFixture : List (String × List SuccessResult) :=
  [("Account", [⟨true, some "001xx1", []⟩, ⟨true, some "001xx2", []⟩])]

/-- A type-code oracle knowing only `Account` (code `001`). -/
def pfxFixture : String → Option String :=
  fun o => if o = "Account" then some "001" else none

/-- The invariant maintained by the depth-first traversal: the visited set and
the output order hold the same nodes, the output is duplicate-free, and every
node's dependency targets appear strictly before it in the output. -/
def SortedInv (g : List (String × List (String × String))) (st : TopoState) : Prop :=
  (∀ x, x ∈ st.visited ↔ x ∈ st.sorted) ∧
  st.sorted.Nodup ∧
  ∀ i (h : i < st.sorted.length) t,
    t ∈ edgeTargets g (st.sorted[i]) → t ∈ st.sorted.take i

/-! ## Association-list lemmas -/

theorem jget_jset_self {β : Type} (m : List (String × β)) (k : String) (v : β) :
    jget (jset m k v) k = some v := by
  induction m with
  | nil => simp [jget, jset]
  | cons p rest ih =>
    by_cases h : p.1 = k
    · simp [jset, h, jget]
    · simp [jset, h, jget, ih]

theorem jget_jset_ne {β : Type} (m : List (String × β)) (k k' : String) (v : β)
    (h : k' ≠ k) : jget (jset m k v) k' = jget m k' := by
  induction m with
  | nil => simp [jget, jset, Ne.symm h]
  | cons p rest ih =>
    by_cases hp : p.1 = k
    · have hpk : ¬ p.1 = k' := by rw [hp]; exact Ne.symm h
      simp only [jset, if_pos hp, jget, if_neg (Ne.symm h), if_neg hpk]
    · simp only [jset, if_neg hp, jget]
      by_cases hk : p.1 = k'
      · simp [hk]
      · simp [hk, ih]

theorem jget_jdel_ne {β : Type} (m : List (String × β)) (k k' : String)
    (h : k' ≠ k) : jget (jdel m k) k' = jget m k' := by
  induction m with
  | nil => simp [jget, jdel]
  | cons p rest ih =>
    by_cases hp : p.1 = k
    · have hpk : ¬ p.1 = k' := by rw [hp]; exact Ne.symm h
      simp only [jdel, List.filter_cons] at ih ⊢
      rw [if_neg (by simp [hp])]
      rw [ih]
      simp [jget, hpk]
    · simp only [jdel, List.filter_cons] at ih ⊢
      rw [if_pos (by simp [hp])]
      by_cases hk : p.1 = k'
      · simp [jget, hk]
      · simp only [jget, if_neg hk]
        simpa [decide_not] using ih

theorem mem_sadd (s : List String) (x y : String) :
    y ∈ sadd s x ↔ y ∈ s ∨ y = x := by
  by_cases h : x ∈ s
  · simp only [sadd, if_pos h]
    constructor
    · exact Or.inl
    · rintro (hy | rfl)
      · exact hy
      · exact h
  · simp [sadd, if_neg h]

/-! ## Claim theorems -/

/-- C1: the specification requires every step with no recorded dependency edge
to be appended to the sequencer's output in original plan order, making
`getSmartOrderedPlan` a permutation of its input.  Evaluating the sequencer on
a one-step plan with no reference fields shows the step is silently dropped:
the output is the empty plan, not a permutation of the input. -/
theorem C1_no_edge_step_dropped :
    getSmartOrderedPlan [accountOnlyStep] [] = .ok []
      ∧ [] ≠ [accountOnlyStep] := by
  constructor
  · rfl
  · simp [accountOnlyStep]

/-- C2 counterexample: a transport-level exception (the source query throwing)
while processing the first of two migration plan entries terminates the run —
the second entry is never validated or processed, refuting the claim that
subsequent entries are still processed. -/
theorem C2_counterexample :
    runMigrationPlan failingQueryTransport [migA, migB] []
      = ([MigEvent.validating "A",
          MigEvent.errorAbort "❌ Error with A: Connection timed out"],
         .error "❌ Error with A: Connection timed out")
    ∧ MigEvent.validating "B" ∉ (runMigrationPlan failingQueryTransport [migA, migB] []).1 := by
  constructor
  · rfl
  · intro hmem
    have : (runMigrationPlan failingQueryTransport [migA, migB] []).1
        = [MigEvent.validating "A",
           MigEvent.errorAbort "❌ Error with A: Connection timed out"] := rfl
    rw [this] at hmem
    simp at hmem

/-- C2 (amended): a step-level transport exception while processing a plan
entry is reported through the command error channel, naming that entry's
object type, and terminates the run — the remaining plan entries are not
processed (the trace of the whole run is exactly the failing entry's trace
followed by the error report). -/
theorem C2_amended_abort (t : Transport) (obj : MigrationObject)
    (rest : List MigrationObject) (idMaps : List (String × List (String × String)))
    (evs : List MigEvent) (e : String)
    (h : processEntry t idMaps obj = (evs, .error e)) :
    runMigrationPlan t (obj :: rest) idMaps
      = (evs ++ [MigEvent.errorAbort ("❌ Error with " ++ obj.sobject ++ ": " ++ e)],
         .error ("❌ Error with " ++ obj.sobject ++ ": " ++ e)) := by
  simp [runMigrationPlan, h]

/-- C2 witness: the amended theorem applied to the concrete failing transport
and two-entry plan. -/
theorem C2_amended_abort_witness :
    runMigrationPlan failingQueryTransport [migA, migB] []
      = ([MigEvent.validating "A"]
          ++ [MigEvent.errorAbort ("❌ Error with " ++ "A" ++ ": " ++ "Connection timed out")],
         .error ("❌ Error with " ++ "A" ++ ": " ++ "Connection timed out")) :=
  C2_amended_abort failingQueryTransport migA [migB] [] [MigEvent.validating "A"]
    "Connection timed out" rfl

/-- C4 counterexample: the remapper's identifier table records a *placeholder*
empty identifier for records whose target insert failed.  A reference field
whose current value is a key of the established map, but mapped to the empty
placeholder, is left unchanged by `resolveReferencesWithFieldMap` — the claim
says any field whose value is a key of the map is rewritten. -/
theorem C4_counterexample :
    resolveReferencesWithFieldMap pfxFixture [("AccId", FieldValue.str "001old")]
        [("AccId", ["Account"])] [("Account", [("001old", "")])]
      = [("AccId", FieldValue.str "001old")]
    ∧ jget [("001old", "")] "001old" = some "" :=
  ⟨rfl, rfl⟩

/-- C4 (amended): for every field processed by the remapper, the field name is
never changed; if the field passes the identifier gate, its resolved target
type has an established identifier map and the map holds a *non-empty* new
identifier for the current value, the field is rewritten to that identifier;
and in every other case (including a mapping to the empty placeholder) the
field is left exactly as it was — in particular fields that are not
reference-typed are never modified. -/
theorem C4_amended ( kp : String → Option String) (rf : List (String × List String))
    (im : List (String × List (String × String))) (fieldName : String) (v : FieldValue) :
    ((resolveRefField kp rf im (fieldName, v)).1 = fieldName)
  ∧ (∀ s objs refObj idMap newId,
      v = FieldValue.str s → s ≠ "" → jsStartsWith s "0" = true →
      jget rf fieldName = some objs →
      pickTarget kp objs s = some refObj →
      jget im refObj = some idMap →
      jget idMap s = some newId → newId ≠ "" →
      resolveRefField kp rf im (fieldName, v) = (fieldName, FieldValue.str newId))
  ∧ (resolveRefField kp rf im (fieldName, v) = (fieldName, v)
     ∨ ∃ s objs refObj idMap newId,
        v = FieldValue.str s ∧ newId ≠ ""
        ∧ jget rf fieldName = some objs
        ∧ pickTarget kp objs s = some refObj
        ∧ jget im refObj = some idMap
        ∧ jget idMap s = some newId
        ∧ resolveRefField kp rf im (fieldName, v) = (fieldName, FieldValue.str newId)) := by
  refine ⟨?_, ?_, ?_⟩
  · cases v <;> simp only [resolveRefField] <;>
      repeat (first | rfl | split)
  · intro s objs refObj idMap newId hv hs hs0 h1 h2 h3 h4 hnew
    subst hv
    simp only [resolveRefField, h1, h2, h3, h4]
    rw [if_neg (by simp [hs, hs0]), if_pos (by simp [hnew])]
  · cases v with
    | num n => exact Or.inl rfl
    | boolean b => exact Or.inl rfl
    | null => exact Or.inl rfl
    | str s =>
      by_cases hgate : (decide (s = "") || !jsStartsWith s "0") = true
      · refine Or.inl ?_
        simp only [resolveRefField]
        rw [if_pos hgate]
      · rcases h1 : jget rf fieldName with _ | objs
        · refine Or.inl ?_
          simp only [resolveRefField]
          rw [if_neg hgate]
          simp only [h1]
        · rcases h2 : pickTarget kp objs s with _ | refObj
          · refine Or.inl ?_
            simp only [resolveRefField]
            rw [if_neg hgate]
            simp only [h1, h2]
          · rcases h3 : jget im refObj with _ | idMap
            · refine Or.inl ?_
              simp only [resolveRefField]
              rw [if_neg hgate]
              simp only [h1, h2, h3]
            · rcases h4 : jget idMap s with _ | newId
              · refine Or.inl ?_
                simp only [resolveRefField]
                rw [if_neg hgate]
                simp only [h1, h2, h3, h4]
              · by_cases hnew : newId = ""
                · refine Or.inl ?_
                  simp only [resolveRefField]
                  rw [if_neg hgate]
                  simp only [h1, h2, h3, h4]
                  rw [if_neg (by simp [hnew])]
                · refine Or.inr ⟨s, objs, refObj, idMap, newId, rfl, hnew, rfl, h2, h3, h4, ?_⟩
                  simp only [resolveRefField]
                  rw [if_neg hgate]
                  simp only [h1, h2, h3, h4]
                  rw [if_pos (by simp [hnew])]

/-- C4 witness: the amended theorem applied to a concrete rewritable field
(established non-empty mapping), with all hypotheses discharged. -/
theorem C4_amended_witness :
    resolveRefField pfxFixture [("AccId", ["Account"])] [("Account", [("001old", "001new")])]
        ("AccId", FieldValue.str "001old")
      = ("AccId", FieldValue.str "001new") :=
  (C4_amended pfxFixture [("AccId", ["Account"])] [("Account", [("001old", "001new")])]
      "AccId" (FieldValue.str "001old")).2.1
    "001old" ["Account"] "Account" [("001old", "001new")] "001new"
    rfl (by decide) rfl rfl rfl rfl rfl (by decide)

/-- C9 counterexample: a bulk result with success flag true and an *empty*
identifier string is classified a success by the driver (`typeof result.id
=== 'string'` accepts the empty string), while the claim's predicate demands
a non-empty identifier. -/
theorem C9_counterexample :
    isSuccess ⟨true, some "", []⟩ = true ∧ specIsSuccess ⟨true, some "", []⟩ = false :=
  ⟨rfl, rfl⟩

/-- C9 (amended): a bulk result is classified a success iff its success flag
is true and its identifier is a present string (empty or not); every other
result is a failure; and when the step retains references exactly the
successes are stored under the step's object-type key, the table being
untouched otherwise. -/
theorem C9_amended (step : SeedingStep) (results : List SuccessResult)
    (referenceMap : List (String × List SuccessResult)) :
    (∀ r, r ∈ (processStepResults step results referenceMap).2.1
        ↔ r ∈ results ∧ (r.success = true ∧ r.id.isSome = true))
  ∧ (∀ r, r ∈ (processStepResults step results referenceMap).2.2
        ↔ r ∈ results ∧ ¬ (r.success = true ∧ r.id.isSome = true))
  ∧ (step.saveRefs = true →
      jget (processStepResults step results referenceMap).1 step.sobject
        = some (results.filter isSuccess))
  ∧ (step.saveRefs = false →
      (processStepResults step results referenceMap).1 = referenceMap) := by
  refine ⟨?_, ?_, ?_, ?_⟩
  · intro r
    simp [processStepResults, List.mem_filter, isSuccess, Bool.and_eq_true]
  · intro r
    simp only [processStepResults, List.mem_filter, Bool.not_eq_true']
    refine and_congr_right fun _ => ?_
    cases hsucc : r.success <;> rcases hid : r.id with _ | i <;>
      simp [isSuccess, hsucc, hid]
  · intro h
    simp [processStepResults, h, jget_jset_self]
  · intro h
    simp [processStepResults, h]

/-- C9 witness: the amended theorem applied to a retaining step with one
empty-identifier success, the `saveRefs` hypothesis discharged. -/
theorem C9_amended_witness :
    jget (processStepResults ⟨"Account", 1, true, []⟩ [⟨true, some "", []⟩] []).1 "Account"
      = some (([⟨true, some "", []⟩] : List SuccessResult).filter isSuccess) :=
  (C9_amended ⟨"Account", 1, true, []⟩ [⟨true, some "", []⟩] []).2.2.1 rfl

/-- C10: a field value is considered for identifier rewriting only when it is
a non-empty string whose first character is '0'; every record field whose
value is a string not starting with '0', or not a string at all, is left
unchanged by `resolveReferencesWithFieldMap` — even when the field is
reference-typed and an old-to-new mapping containing that value exists. -/
theorem C10_zero_gate ( kp : String → Option String) (rf : List (String × List String))
    (im : List (String × List (String × String))) (record : List (String × FieldValue)) :
    ((resolveReferencesWithFieldMap kp record rf im).length = record.length)
  ∧ (∀ i fieldName v, record.get? i = some (fieldName, v) →
      (∀ s, v = FieldValue.str s → s = "" ∨ jsStartsWith s "0" = false) →
      (resolveReferencesWithFieldMap kp record rf im).get? i = some (fieldName, v)) := by
  constructor
  · simp [resolveReferencesWithFieldMap]
  · intro i fieldName v hget hv
    have hmap : (resolveReferencesWithFieldMap kp record rf im).get? i
        = (record.get? i).map (resolveRefField kp rf im) := by
      simp [resolveReferencesWithFieldMap, List.get?_map]
    rw [hmap, hget]
    have : resolveRefField kp rf im (fieldName, v) = (fieldName, v) := by
      cases v with
      | str s =>
        rcases hv s rfl with hempty | hstart
        · simp [resolveRefField, hempty]
        · simp only [resolveRefField]
          rw [if_pos (by simp [hstart])]
      | num n => rfl
      | boolean b => rfl
      | null => rfl
    simp [this]

/-- C10 witness: a string not starting with '0' passes through untouched even
though the field is reference-typed and the identifier map contains the
value. -/
theorem C10_zero_gate_witness :
    (resolveReferencesWithFieldMap pfxFixture [("AccId", FieldValue.str "xyz")]
        [("AccId", ["Account"])] [("Account", [("xyz", "new")])]).get? 0
      = some ("AccId", FieldValue.str "xyz") :=
  (C10_zero_gate pfxFixture [("AccId", ["Account"])] [("Account", [("xyz", "new")])]
      [("AccId", FieldValue.str "xyz")]).2 0 "AccId" (FieldValue.str "xyz") rfl
    (by intro s hs; cases hs; exact Or.inr rfl)

/-! ## Counter-substitution lemmas (heads of strings survive substitution) -/

theorem substCounterList_not_tok (rep : List Char) (n : Nat) (c : Char) (cs : List Char)
    (hnp : counterTok.isPrefixOf (c :: cs) = false) :
    substCounterList rep (n + 1) (c :: cs) = c :: substCounterList rep n cs := by
  simp [substCounterList, hnp]

theorem counterTok_not_prefix_of_faker {s : String}
    (h : jsStartsWith s "#\x7bfaker." = true) :
    counterTok.isPrefixOf s.data = false := by
  rw [jsStartsWith] at h
  obtain ⟨t, ht⟩ := List.isPrefixOf_iff_prefix.mp h
  rw [← ht]
  show counterTok.isPrefixOf
    ('#' :: '{' :: 'f' :: 'a' :: 'k' :: 'e' :: 'r' :: '.' :: t) = false
  rfl

theorem substCounter_faker_head {s : String} (k : Nat)
    (h : jsStartsWith s "#\x7bfaker." = true) :
    jsStartsWith (substCounter s k) "@\x7b" = false := by
  have hnp := counterTok_not_prefix_of_faker h
  obtain ⟨t, ht⟩ := List.isPrefixOf_iff_prefix.mp (by rw [jsStartsWith] at h; exact h)
  have hdata : s.data = '#' :: ('{' :: 'f' :: 'a' :: 'k' :: 'e' :: 'r' :: '.' :: t) := ht.symm
  rw [substCounter, jsStartsWith]
  show ("@\x7b".data).isPrefixOf (substCounterList _ s.data.length s.data) = false
  rw [hdata] at hnp ⊢
  rw [List.length_cons, substCounterList_not_tok _ _ _ _ hnp]
  rfl

theorem subst_ref_not_faker {s : String} {k : Nat}
    (h : jsStartsWith (substCounter s k) "@\x7b" = true) :
    jsStartsWith s "#\x7bfaker." = false := by
  by_contra hne
  have hsh : jsStartsWith s "#\x7bfaker." = true := by
    revert hne; cases jsStartsWith s "#\x7bfaker." <;> simp
  rw [substCounter_faker_head k hsh] at h
  exact Bool.noConfusion h

theorem resolveFaker_of_not_shaped (ns : JSVal) {s : String}
    (h : jsStartsWith s "#\x7bfaker." = false) :
    resolveFakerExpression ns s = (none, []) := by
  simp [resolveFakerExpression, h]

/-- C3 counterexample: a synthetic-data expression whose dotted path hits an
undefined namespace segment makes `resolveFakerExpression` warn and yield no
value, but `processValue` then *falls through* to the later stages and
returns the original literal string — the field's resolved value is not
null. -/
theorem C3_counterexample :
    processValue nsFixture (FieldValue.str "#{faker.bogus.path}") 0 false [] 0
      = (FieldValue.str "#{faker.bogus.path}", ["Invalid faker path: bogus.path"])
    ∧ FieldValue.str "#{faker.bogus.path}" ≠ FieldValue.null := by
  exact ⟨rfl, by simp⟩

/-- C3 (amended): when a synthetic-data expression's path resolution yields no
value, the warnings are emitted and the field's resolved value is the
*original expression string after counter substitution* (the unresolved
expression passes through literally), not null. -/
theorem C3_amended (ns : JSVal) (s : String) (counter : Nat) (isDryRun : Bool)
    (referenceMap : List (String × List SuccessResult)) (randIdx : Nat)
    (ws : List String)
    (hshape : jsStartsWith s "#\x7bfaker." = true)
    (hres : resolveFakerExpression ns s = (none, ws)) :
    processValue ns (FieldValue.str s) counter isDryRun referenceMap randIdx
      = (FieldValue.str (substCounter s counter), ws) := by
  have hat : jsStartsWith (substCounter s counter) "@\x7b" = false :=
    substCounter_faker_head counter hshape
  simp [processValue, hres, hat]

/-- C3 witness: the amended theorem applied to the concrete broken path. -/
theorem C3_amended_witness :
    processValue nsFixture (FieldValue.str "#{faker.bogus.path}") 0 false [] 0
      = (FieldValue.str (substCounter "#{faker.bogus.path}" 0),
         ["Invalid faker path: bogus.path"]) :=
  C3_amended nsFixture "#{faker.bogus.path}" 0 false [] 0
    ["Invalid faker path: bogus.path"] rfl rfl

/-- C8: the token expander's fixed resolution order, for the real insertion
mode (`isDryRun = false`; the dry-run flag deliberately skips reference
resolution since no identifier table exists).  (1) non-string inputs pass
through unchanged with no warning; (2) a resolvable synthetic-data expression
is returned immediately with its warnings; (3) when the whole
counter-substituted string is a reference token and the referenced type has
retained successes, the value is the member selected by the supplied random
index (any index below the list length is selectable), with no warning;
(4) when the retained list is absent or empty the value is null with exactly
one warning — never a throw (the expander is total); (5) otherwise the
substituted string is returned unchanged. -/
theorem C8_resolution_order (ns : JSVal)
    (referenceMap : List (String × List SuccessResult)) :
    (∀ v counter randIdx, (∀ s, v ≠ FieldValue.str s) →
      processValue ns v counter false referenceMap randIdx = (v, []))
  ∧ (∀ s counter randIdx fv ws, resolveFakerExpression ns s = (some fv, ws) →
      processValue ns (FieldValue.str s) counter false referenceMap randIdx = (fv, ws))
  ∧ (∀ s counter randIdx ws refList,
      resolveFakerExpression ns s = (none, ws) →
      jsStartsWith (substCounter s counter) "@\x7b" = true →
      jsEndsWith (substCounter s counter) "\x7d" = true →
      jget referenceMap (refKeyOf (substCounter s counter)) = some refList →
      ∀ h : randIdx < refList.length,
        processValue ns (FieldValue.str s) counter false referenceMap randIdx
          = (idValue (refList.get ⟨randIdx, h⟩).id, []))
  ∧ (∀ s counter randIdx ws,
      resolveFakerExpression ns s = (none, ws) →
      jsStartsWith (substCounter s counter) "@\x7b" = true →
      jsEndsWith (substCounter s counter) "\x7d" = true →
      (jget referenceMap (refKeyOf (substCounter s counter)) = none ∨
       jget referenceMap (refKeyOf (substCounter s counter)) = some []) →
      processValue ns (FieldValue.str s) counter false referenceMap randIdx
        = (FieldValue.null,
           ["Reference not found for key: " ++ refKeyOf (substCounter s counter)
             ++ ". Returning null."]))
  ∧ (∀ s counter randIdx ws,
      resolveFakerExpression ns s = (none, ws) →
      (jsStartsWith (substCounter s counter) "@\x7b" = false ∨
       jsEndsWith (substCounter s counter) "\x7d" = false) →
      processValue ns (FieldValue.str s) counter false referenceMap randIdx
        = (FieldValue.str (substCounter s counter), ws)) := by
  refine ⟨?_, ?_, ?_, ?_, ?_⟩
  · intro v counter randIdx hv
    cases v with
    | str s => exact absurd rfl (hv s)
    | num n => rfl
    | boolean b => rfl
    | null => rfl
  · intro s counter randIdx fv ws hb
    simp [processValue, hb]
  · intro s counter randIdx ws refList hres hsw hew hget hlt
    have hfk : jsStartsWith s "#\x7bfaker." = false := subst_ref_not_faker hsw
    have h0 : resolveFakerExpression ns s = (none, []) := resolveFaker_of_not_shaped ns hfk
    have hpos : 0 < refList.length := Nat.lt_of_le_of_lt (Nat.zero_le _) hlt
    simp only [processValue, h0, hsw, hew, Bool.not_false, Bool.true_and, Bool.and_self,
      if_true, hget, dif_pos hpos]
    simp [Nat.mod_eq_of_lt hlt]
  · intro s counter randIdx ws hres hsw hew hmiss
    have hfk : jsStartsWith s "#\x7bfaker." = false := subst_ref_not_faker hsw
    have h0 : resolveFakerExpression ns s = (none, []) := resolveFaker_of_not_shaped ns hfk
    rcases hmiss with hm | hm <;>
      simp [processValue, h0, hsw, hew, hm]
  · intro s counter randIdx ws hres hor
    rcases hor with hf | hf <;> simp [processValue, hres, hf]

/-- C8 witness: the resolution-order theorem applied to a pass-through number,
a resolvable generator expression, a reference token drawing the second
retained success, an unsatisfiable reference token, and a plain
counter-substituted literal. -/
theorem C8_resolution_order_witness :
    processValue nsFixture (FieldValue.num 7) 3 false refMapFixture 0
      = (FieldValue.num 7, [])
  ∧ processValue nsFixture (FieldValue.str "#{faker.company.name}") 0 false refMapFixture 0
      = (FieldValue.str "Acme Corp", [])
  ∧ processValue nsFixture (FieldValue.str "@{Account.Id}") 0 false refMapFixture 1
      = (FieldValue.str "001xx2", [])
  ∧ processValue nsFixture (FieldValue.str "@{Contact.Id}") 0 false refMapFixture 0
      = (FieldValue.null, ["Reference not found for key: Contact. Returning null."])
  ∧ processValue nsFixture (FieldValue.str "User-#{counter}") 4 false refMapFixture 0
      = (FieldValue.str "User-5", []) := by
  refine ⟨?_, ?_, ?_, ?_, ?_⟩
  · exact (C8_resolution_order nsFixture refMapFixture).1 (FieldValue.num 7) 3 0
      (fun s h => FieldValue.noConfusion h)
  · exact (C8_resolution_order nsFixture refMapFixture).2.1 "#{faker.company.name}" 0 0
      (FieldValue.str "Acme Corp") [] rfl
  · exact (C8_resolution_order nsFixture refMapFixture).2.2.1 "@{Account.Id}" 0 1 []
      [⟨true, some "001xx1", []⟩, ⟨true, some "001xx2", []⟩] rfl rfl rfl rfl (by decide)
  · exact (C8_resolution_order nsFixture refMapFixture).2.2.2.1 "@{Contact.Id}" 0 0 []
      rfl rfl rfl (Or.inl rfl)
  · exact (C8_resolution_order nsFixture refMapFixture).2.2.2.2 "User-#{counter}" 4 0 []
      rfl (Or.inl rfl)

/-! ## Cycle-break edge counting (C5) -/

theorem countP_jdel (deps : List (String × String)) (f b : String)
    (hnd : (deps.map Prod.fst).Nodup) (hget : jget deps f = some b) :
    (jdel deps f).countP (fun p => p.2 == b) + 1 = deps.countP (fun p => p.2 == b) := by
  induction deps with
  | nil => simp [jget] at hget
  | cons p rest ih =>
    rw [List.map_cons, List.nodup_cons] at hnd
    by_cases hp : p.1 = f
    · rw [jget, if_pos hp] at hget
      have hpb : p.2 = b := Option.some.inj hget
      have hrest : jdel rest f = rest := by
        refine List.filter_eq_self.mpr ?_
        intro x hx
        have : x.1 ≠ f := by
          intro hxf
          apply hnd.1
          rw [hp, ← hxf]
          exact List.mem_map_of_mem Prod.fst hx
        simp [this]
      have hdrop : jdel (p :: rest) f = rest := by
        simp only [jdel, List.filter_cons]
        rw [if_neg (by simp [hp]), ← jdel, hrest]
      rw [hdrop, List.countP_cons]
      simp [hpb]
    · rw [jget, if_neg hp] at hget
      have hkeep : jdel (p :: rest) f = p :: jdel rest f := by
        simp only [jdel, List.filter_cons]
        rw [if_pos (by simp [hp])]
      rw [hkeep, List.countP_cons, List.countP_cons]
      have := ih hnd.2 hget
      omega

/-- C5 counterexample: with *parallel* edges `A --F1--> B` and `A --F2--> B`
alongside `B --G--> A`, removing the selected cyclic edge `(A, F1, B)` does
reduce the edge count between the pair by one, but a cycle between `A` and
`B` REMAINS (`F2` and `G` survive), refuting the claim's "no cycle remains
between A and B". -/
theorem C5_counterexample :
    cyclicPairB (buildGraphs [parStepA, parStepB]).dep "A" "B" = true
  ∧ ("A", "F1", "B") ∈ detectCyclicEdges (buildGraphs [parStepA, parStepB])
  ∧ edgesBetween (graphAfterResolution [parStepA, parStepB] [("A", "F1", "B")]).dep "A" "B" + 1
      = edgesBetween (buildGraphs [parStepA, parStepB]).dep "A" "B"
  ∧ cyclicPairB (graphAfterResolution [parStepA, parStepB] [("A", "F1", "B")]).dep "A" "B"
      = true := by
  refine ⟨rfl, ?_, rfl, rfl⟩
  decide

/-- C5 (amended): removing the selected edge of a two-object cycle group
always leaves exactly one fewer edge between the pair; and when the selected
edge was the *only* edge in its direction (no parallel edges), no cycle
remains between the pair. -/
theorem C5_amended (plan : List SeedingStep) (g : DepGraphs) (a f b : String)
    (deps : List (String × String))
    (hdeps : jget g.dep a = some deps)
    (hedge : jget deps f = some b)
    (hnd : (deps.map Prod.fst).Nodup)
    (hab : a ≠ b)
    (_hcyc : cyclicPairB g.dep a b = true) :
    edgesBetween (applyRemoval plan g (a, f, b)).2.dep a b + 1 = edgesBetween g.dep a b
  ∧ (edgesFromTo g.dep a b = 1 →
      cyclicPairB (applyRemoval plan g (a, f, b)).2.dep a b = false) := by
  have hdep2 : (applyRemoval plan g (a, f, b)).2.dep = jset g.dep a (jdel deps f) := by
    simp [applyRemoval, hdeps]
  have hfromAB : edgesFromTo (jset g.dep a (jdel deps f)) a b + 1 = edgesFromTo g.dep a b := by
    unfold edgesFromTo
    rw [jget_jset_self, hdeps]
    simp only [Option.getD_some]
    exact countP_jdel deps f b hnd hedge
  have hfromBA : edgesFromTo (jset g.dep a (jdel deps f)) b a = edgesFromTo g.dep b a := by
    unfold edgesFromTo
    rw [jget_jset_ne _ _ _ _ (Ne.symm hab)]
  constructor
  · rw [hdep2]
    unfold edgesBetween
    omega
  · intro hone
    rw [hdep2]
    unfold cyclicPairB
    have hz : edgesFromTo (jset g.dep a (jdel deps f)) a b = 0 := by omega
    simp [hz]

/-- C5 witness: the amended theorem applied to the simple two-object cycle
`C ⇄ D` with the selected removal `(C, F, D)`. -/
theorem C5_amended_witness :
    edgesBetween (applyRemoval [simpleStepC, simpleStepD]
        (buildGraphs [simpleStepC, simpleStepD]) ("C", "F", "D")).2.dep "C" "D" + 1
      = edgesBetween (buildGraphs [simpleStepC, simpleStepD]).dep "C" "D"
  ∧ cyclicPairB (applyRemoval [simpleStepC, simpleStepD]
        (buildGraphs [simpleStepC, simpleStepD]) ("C", "F", "D")).2.dep "C" "D" = false := by
  have h := C5_amended [simpleStepC, simpleStepD] (buildGraphs [simpleStepC, simpleStepD])
    "C" "F" "D" [("F", "D")] rfl rfl (by decide) (by decide) rfl
  exact ⟨h.1, h.2 rfl⟩

/-! ## Depth-first traversal facts (C7) -/

theorem topoVisit_ok_facts (g : List (String × List (String × String))) :
    ∀ (fuel : Nat) (nodes : List String) (st st' : TopoState),
    topoVisit g fuel nodes st = .ok st' →
    (∀ x, x ∈ st.visited → x ∈ st'.visited) ∧
    (∃ l, st'.sorted = st.sorted ++ l) ∧
    st'.temp = st.temp ∧
    (∀ x, x ∈ st.temp → x ∈ st'.visited → x ∈ st.visited) ∧
    (∀ n, n ∈ nodes → n ∈ st'.visited) := by
  intro fuel
  induction fuel with
  | zero =>
    intro nodes st st' h
    cases nodes with
    | nil =>
      simp only [topoVisit, Except.ok.injEq] at h
      subst h
      exact ⟨fun _ hx => hx, ⟨[], by simp⟩, rfl, fun _ _ hv => hv, by simp⟩
    | cons a l => simp [topoVisit] at h
  | succ n ih =>
    intro nodes st st' h
    cases nodes with
    | nil =>
      simp only [topoVisit, Except.ok.injEq] at h
      subst h
      exact ⟨fun _ hx => hx, ⟨[], by simp⟩, rfl, fun _ _ hv => hv, by simp⟩
    | cons node rest =>
      rw [topoVisit] at h
      by_cases htemp : node ∈ st.temp
      · simp [htemp] at h
      · rw [if_neg (by simpa using htemp)] at h
        by_cases hvis : node ∈ st.visited
        · rw [if_pos (by simpa using hvis)] at h
          obtain ⟨m1, m2, m3, m4, m5⟩ := ih rest st st' h
          refine ⟨m1, m2, m3, m4, fun x hx => ?_⟩
          rcases List.mem_cons.mp hx with hx | hx
          · exact m1 x (hx ▸ hvis)
          · exact m5 x hx
        · rw [if_neg (by simpa using hvis)] at h
          rcases hsub : topoVisit g n (edgeTargets g node)
              { st with temp := sadd st.temp node } with e | st2
          · rw [hsub] at h
            cases h
          · rw [hsub] at h
            obtain ⟨s1, s2, s3, s4, s5⟩ := ih _ _ _ hsub
            obtain ⟨c1, c2, c3, c4, c5⟩ := ih _ _ _ h
            have hnode_not_in : node ∉ st.temp := htemp
            have htemp3 : (st2.temp.filter (fun x => x ≠ node)) = st.temp := by
              rw [s3]
              simp only []
              have : sadd st.temp node = st.temp ++ [node] := by
                simp [sadd, hnode_not_in]
              rw [this, List.filter_append]
              have h1 : st.temp.filter (fun x => x ≠ node) = st.temp :=
                List.filter_eq_self.mpr (fun x hx => by
                  simp only [decide_eq_true_eq]
                  intro hxn
                  exact hnode_not_in (hxn ▸ hx))
              have h2 : ([node] : List String).filter (fun x => x ≠ node) = [] := by simp
              rw [h1, h2, List.append_nil]
            refine ⟨?_, ?_, ?_, ?_, ?_⟩
            · intro x hx
              exact c1 x (by
                simp only [mem_sadd]
                exact Or.inl (s1 x hx))
            · obtain ⟨l1, hl1⟩ := s2
              obtain ⟨l2, hl2⟩ := c2
              exact ⟨l1 ++ [node] ++ l2, by
                rw [hl2]
                simp only []
                rw [hl1]
                simp [List.append_assoc]⟩
            · rw [c3]
              simpa using htemp3
            · intro x hx hv
              have hx2 : x ∈ st2.temp.filter (fun y => y ≠ node) := by
                rw [htemp3]; exact hx
              have hxv3 : x ∈ st2.visited := by
                have := c4 x (by simpa using hx2) hv
                simp only [mem_sadd] at this
                rcases this with hh | hh
                · exact hh
                · exfalso
                  exact hnode_not_in (hh ▸ hx)
              have : x ∈ sadd st.temp node := by
                simp only [mem_sadd]
                exact Or.inl hx
              exact s4 x this hxv3
            · intro m hm
              rcases List.mem_cons.mp hm with hm | hm
              · subst hm
                exact c1 m (by simp [mem_sadd])
              · exact c5 m hm

theorem take_append_le {α : Type} :
    ∀ (i : Nat) (l l' : List α), i ≤ l.length → (l ++ l').take i = l.take i := by
  intro i l
  induction l generalizing i with
  | nil =>
    intro l' h
    have : i = 0 := Nat.le_zero.mp (by simpa using h)
    simp [this]
  | cons a as ih =>
    intro l' h
    cases i with
    | zero => simp
    | succ j =>
      simp only [List.cons_append, List.take_succ_cons]
      rw [ih j l' (Nat.le_of_succ_le_succ (by simpa using h))]

theorem topoVisit_inv (g : List (String × List (String × String))) :
    ∀ (fuel : Nat) (nodes : List String) (st st' : TopoState),
    topoVisit g fuel nodes st = .ok st' →
    SortedInv g st → SortedInv g st' := by
  intro fuel
  induction fuel with
  | zero =>
    intro nodes st st' h hinv
    cases nodes with
    | nil =>
      simp only [topoVisit, Except.ok.injEq] at h
      subst h
      exact hinv
    | cons a l => simp [topoVisit] at h
  | succ n ih =>
    intro nodes st st' h hinv
    cases nodes with
    | nil =>
      simp only [topoVisit, Except.ok.injEq] at h
      subst h
      exact hinv
    | cons node rest =>
      rw [topoVisit] at h
      by_cases htemp : node ∈ st.temp
      · simp [htemp] at h
      · rw [if_neg (by simpa using htemp)] at h
        by_cases hvis : node ∈ st.visited
        · rw [if_pos (by simpa using hvis)] at h
          exact ih rest st st' h hinv
        · rw [if_neg (by simpa using hvis)] at h
          rcases hsub : topoVisit g n (edgeTargets g node)
              { st with temp := sadd st.temp node } with e | st2
          · rw [hsub] at h
            cases h
          · rw [hsub] at h
            have hinv2 : SortedInv g st2 := ih _ _ _ hsub hinv
            obtain ⟨s1, s2, s3, s4, s5⟩ := topoVisit_ok_facts g n _ _ _ hsub
            -- the pushed node is fresh: it is not yet in st2's output
            have hfresh : node ∉ st2.sorted := by
              intro hmem
              have hv2 : node ∈ st2.visited := (hinv2.1 node).mpr hmem
              have : node ∈ sadd st.temp node := by simp [mem_sadd]
              exact hvis (s4 node this hv2)
            -- all dependency targets of the node are already in st2's output
            have hdeps : ∀ t, t ∈ edgeTargets g node → t ∈ st2.sorted := by
              intro t ht
              exact (hinv2.1 t).mp (s5 t ht)
            have hinv3 : SortedInv g
                ⟨sadd st2.visited node, st2.temp.filter (fun x => x ≠ node),
                  st2.sorted ++ [node]⟩ := by
              refine ⟨?_, ?_, ?_⟩
              · intro x
                simp only [mem_sadd, List.mem_append, List.mem_singleton]
                constructor
                · rintro (hx | hx)
                  · exact Or.inl ((hinv2.1 x).mp hx)
                  · exact Or.inr hx
                · rintro (hx | hx)
                  · exact Or.inl ((hinv2.1 x).mpr hx)
                  · exact Or.inr hx
              · simp only [List.nodup_append, List.nodup_singleton]
                exact ⟨hinv2.2.1, trivial, by
                  intro x hx hx1
                  simp only [List.mem_singleton] at hx1
                  exact hfresh (hx1 ▸ hx)⟩
              · intro i hlen t ht
                simp only [List.length_append, List.length_singleton] at hlen
                by_cases hi : i < st2.sorted.length
                · rw [List.getElem_append_left hi] at ht
                  have := hinv2.2.2 i hi t ht
                  rw [take_append_le i st2.sorted [node] (Nat.le_of_lt hi)]
                  exact this
                · have hieq : i = st2.sorted.length := by omega
                  rw [List.getElem_concat_length _ _ _ hieq] at ht
                  rw [take_append_le i st2.sorted [node] (Nat.le_of_eq hieq)]
                  rw [hieq, List.take_length]
                  exact hdeps t ht
            exact ih _ _ _ h hinv3

theorem jget_some_mem_keys {β : Type} (m : List (String × β)) (k : String) (v : β)
    (h : jget m k = some v) : k ∈ m.map (fun p => p.1) := by
  induction m with
  | nil => simp [jget] at h
  | cons p rest ih =>
    rw [jget] at h
    by_cases hp : p.1 = k
    · simp [hp]
    · rw [if_neg hp] at h
      simp [ih h]

/-- C7: topological validity of the sequencer.  Whenever
`getSmartOrderedPlan` succeeds, for every pair of steps S and T such that S
has a dependency edge to T in the post-cycle-resolution dependency map, the
step of T appears strictly before the step of S in the output list. -/
theorem C7_topological_validity (plan : List SeedingStep) (removals : List Removal)
    (out : List SeedingStep) (s t : String) (sstep tstep : SeedingStep)
    (hrun : getSmartOrderedPlan plan removals = .ok out)
    (hedge : t ∈ edgeTargets (graphAfterResolution plan removals).dep s)
    (hfs : (planWithSaveRefs plan removals).find? (fun p => p.sobject == s) = some sstep)
    (hft : (planWithSaveRefs plan removals).find? (fun p => p.sobject == t) = some tstep) :
    ∃ l₁ l₂ l₃, out = l₁ ++ tstep :: l₂ ++ sstep :: l₃
      ∧ tstep.sobject = t ∧ sstep.sobject = s := by
  simp only [getSmartOrderedPlan] at hrun
  rcases hok : topoVisit (graphAfterResolution plan removals).dep
      (topoFuel (graphAfterResolution plan removals).dep)
      ((graphAfterResolution plan removals).dep.map (fun p => p.1))
      ⟨[], [], []⟩ with e | stF
  · rw [hok] at hrun
    cases hrun
  · rw [hok] at hrun
    have hout : out = stF.sorted.filterMap
        (fun name => (planWithSaveRefs plan removals).find?
          (fun p => p.sobject == name)) := by
      cases hrun
      rfl
    have hkey : s ∈ (graphAfterResolution plan removals).dep.map (fun p => p.1) := by
      rcases hj : jget (graphAfterResolution plan removals).dep s with _ | deps
      · rw [edgeTargets, hj] at hedge
        simp at hedge
      · exact jget_some_mem_keys _ _ _ hj
    obtain ⟨-, -, -, -, m5⟩ := topoVisit_ok_facts _ _ _ _ _ hok
    have hinv : SortedInv (graphAfterResolution plan removals).dep stF := by
      refine topoVisit_inv _ _ _ _ _ hok ⟨by simp, by simp, ?_⟩
      intro i h t' ht'
      simp at h
    have hsmem : s ∈ stF.sorted := (hinv.1 s).mp (m5 s hkey)
    obtain ⟨i, hi, hsg⟩ := List.getElem_of_mem hsmem
    have htmem : t ∈ stF.sorted.take i := hinv.2.2 i hi t (by rw [hsg]; exact hedge)
    have hsplit : stF.sorted = stF.sorted.take i ++ s :: stF.sorted.drop (i + 1) := by
      conv_lhs => rw [← List.take_append_drop i stF.sorted]
      rw [List.drop_eq_getElem_cons hi, hsg]
    obtain ⟨la, lb, hta⟩ := List.append_of_mem htmem
    have hfull : stF.sorted = la ++ t :: (lb ++ s :: stF.sorted.drop (i + 1)) := by
      conv_lhs => rw [hsplit, hta]
      simp [List.append_assoc]
    refine ⟨la.filterMap (fun name => (planWithSaveRefs plan removals).find?
        (fun p => p.sobject == name)),
      lb.filterMap (fun name => (planWithSaveRefs plan removals).find?
        (fun p => p.sobject == name)),
      (stF.sorted.drop (i + 1)).filterMap
        (fun name => (planWithSaveRefs plan removals).find?
          (fun p => p.sobject == name)), ?_, ?_, ?_⟩
    · rw [hfull] at hout
      rw [hout]
      simp only [List.filterMap_append, List.filterMap_cons, hft, hfs]
      simp [List.append_assoc]
    · have h1 : (tstep.sobject == t) = true := by
        have := List.find?_some hft
        simpa using this
      exact eq_of_beq h1
    · have h1 : (sstep.sobject == s) = true := by
        have := List.find?_some hfs
        simpa using this
      exact eq_of_beq h1

/-- C7 witness: the theorem applied to the Account/Contact plan: Contact has
an edge to Account, and the Account step precedes the Contact step in the
sequencer's output. -/
theorem C7_topological_validity_witness :
    ∃ l₁ l₂ l₃,
      [(⟨"Account", 1, true, [("Name", FieldValue.str "Acme")]⟩ : SeedingStep),
       ⟨"Contact", 2, false,
         [("LastName", FieldValue.str "User-#{counter}"),
          ("AccountId", FieldValue.str "@{Account.Id}")]⟩]
        = l₁ ++ (⟨"Account", 1, true, [("Name", FieldValue.str "Acme")]⟩ : SeedingStep)
            :: l₂ ++ (⟨"Contact", 2, false,
              [("LastName", FieldValue.str "User-#{counter}"),
               ("AccountId", FieldValue.str "@{Account.Id}")]⟩ : SeedingStep) :: l₃
      ∧ (⟨"Account", 1, true, [("Name", FieldValue.str "Acme")]⟩ : SeedingStep).sobject
          = "Account"
      ∧ (⟨"Contact", 2, false,
          [("LastName", FieldValue.str "User-#{counter}"),
           ("AccountId", FieldValue.str "@{Account.Id}")]⟩ : SeedingStep).sobject
          = "Contact" :=
  C7_topological_validity [accountOnlyStep, contactStep] []
    [⟨"Account", 1, true, [("Name", FieldValue.str "Acme")]⟩,
     ⟨"Contact", 2, false,
       [("LastName", FieldValue.str "User-#{counter}"),
        ("AccountId", FieldValue.str "@{Account.Id}")]⟩]
    "Contact" "Account"
    ⟨"Contact", 2, false,
      [("LastName", FieldValue.str "User-#{counter}"),
       ("AccountId", FieldValue.str "@{Account.Id}")]⟩
    ⟨"Account", 1, true, [("Name", FieldValue.str "Acme")]⟩
    rfl (by decide) rfl rfl

/-! ## Dependent-map tracking (C6) -/

theorem memDependents_true_iff (d : List (String × List String)) (t s : String) :
    memDependents d t s = true ↔ s ∈ (jget d t).getD [] := by
  unfold memDependents
  simp [List.contains, List.elem_iff]

theorem memD_jset_sadd (d : List (String × List String)) (r sobj t s : String) :
    memDependents (jset d r (sadd ((jget d r).getD []) sobj)) t s = true ↔
      (memDependents d t s = true ∨ (t = r ∧ s = sobj)) := by
  by_cases htr : t = r
  · subst htr
    rw [memDependents_true_iff, memDependents_true_iff]
    rw [jget_jset_self]
    simp only [Option.getD_some]
    rw [mem_sadd]
    tauto
  · rw [memDependents_true_iff, memDependents_true_iff]
    rw [jget_jset_ne _ _ _ _ htr]
    tauto

theorem memD_stepAdd (sobj : String) (fields : List (String × FieldValue))
    (d : List (String × List String)) (t s : String) :
    memDependents (stepAddDependents sobj fields d) t s = true ↔
      (memDependents d t s = true ∨
       (s = sobj ∧ ∃ fv ∈ fields, parseRefTarget fv.2 = some t)) := by
  induction fields generalizing d with
  | nil =>
    simp [stepAddDependents]
  | cons fv rest ih =>
    rcases hr : parseRefTarget fv.2 with _ | r
    · have hstep : stepAddDependents sobj (fv :: rest) d = stepAddDependents sobj rest d := by
        rw [stepAddDependents, List.foldl_cons, hr]
        rfl
      rw [hstep, ih]
      constructor
      · rintro (hx | ⟨h1, v, hv1, hv2⟩)
        · exact Or.inl hx
        · exact Or.inr ⟨h1, v, List.mem_cons_of_mem _ hv1, hv2⟩
      · rintro (hx | ⟨h1, v, hv1, hv2⟩)
        · exact Or.inl hx
        · rcases List.mem_cons.mp hv1 with h | h
          · rw [h] at hv2
            rw [hv2] at hr
            cases hr
          · exact Or.inr ⟨h1, v, h, hv2⟩
    · have hstep : stepAddDependents sobj (fv :: rest) d
          = stepAddDependents sobj rest (jset d r (sadd ((jget d r).getD []) sobj)) := by
        rw [stepAddDependents, List.foldl_cons, hr]
        rfl
      rw [hstep, ih, memD_jset_sadd]
      constructor
      · rintro ((hx | ⟨h1, h2⟩) | ⟨h1, v, hv1, hv2⟩)
        · exact Or.inl hx
        · exact Or.inr ⟨h2, fv, List.mem_cons_self _ _, by rw [hr, h1]⟩
        · exact Or.inr ⟨h1, v, List.mem_cons_of_mem _ hv1, hv2⟩
      · rintro (hx | ⟨h1, v, hv1, hv2⟩)
        · exact Or.inl (Or.inl hx)
        · rcases List.mem_cons.mp hv1 with h | h
          · rw [h] at hv2
            rw [hv2] at hr
            exact Or.inl (Or.inr ⟨Option.some.inj hr, h1⟩)
          · exact Or.inr ⟨h1, v, h, hv2⟩

theorem jget_jset_cases {β : Type} (m : List (String × β)) (k k' : String) (v : β)
    (l : β) (h : jget (jset m k v) k' = some l) : l = v ∨ jget m k' = some l := by
  by_cases hk : k' = k
  · subst hk
    rw [jget_jset_self] at h
    exact Or.inl (Option.some.inj h).symm
  · rw [jget_jset_ne _ _ _ _ hk] at h
    exact Or.inr h

theorem sadd_ne_nil (s : List String) (x : String) : sadd s x ≠ [] := by
  unfold sadd
  split
  · intro h
    subst h
    simp_all
  · simp

theorem depsNonempty_stepAdd (sobj : String) (fields : List (String × FieldValue))
    (d : List (String × List String)) (hne : depsNonempty d) :
    depsNonempty (stepAddDependents sobj fields d) := by
  induction fields generalizing d with
  | nil => simpa [stepAddDependents] using hne
  | cons fv rest ih =>
    rcases hr : parseRefTarget fv.2 with _ | r
    · have hstep : stepAddDependents sobj (fv :: rest) d = stepAddDependents sobj rest d := by
        rw [stepAddDependents, List.foldl_cons, hr]
        rfl
      rw [hstep]
      exact ih d hne
    · have hstep : stepAddDependents sobj (fv :: rest) d
          = stepAddDependents sobj rest (jset d r (sadd ((jget d r).getD []) sobj)) := by
        rw [stepAddDependents, List.foldl_cons, hr]
        rfl
      rw [hstep]
      refine ih _ ?_
      intro t l hget
      rcases jget_jset_cases _ _ _ _ _ hget with h | h
      · rw [h]
        exact sadd_ne_nil _ _
      · exact hne t l h

theorem buildGraphsAux_dependents (plan : List SeedingStep) :
    ∀ (g : DepGraphs) (t s : String),
    memDependents (buildGraphsAux plan g).dependents t s = true ↔
      (memDependents g.dependents t s = true ∨ dependsOnB plan s t = true) := by
  induction plan with
  | nil =>
    intro g t s
    simp [buildGraphsAux, dependsOnB]
  | cons step rest ih =>
    intro g t s
    rw [buildGraphsAux]
    rw [ih]
    simp only [memD_stepAdd]
    have hdep : dependsOnB (step :: rest) s t = true ↔
        ((s = step.sobject ∧ ∃ fv ∈ step.fields, parseRefTarget fv.2 = some t) ∨
         dependsOnB rest s t = true) := by
      unfold dependsOnB
      simp only [List.any_cons, Bool.or_eq_true, Bool.and_eq_true, beq_iff_eq,
        List.any_eq_true]
      constructor
      · rintro (⟨h1, fv, h2, h3⟩ | hx)
        · exact Or.inl ⟨h1.symm, fv, h2, h3⟩
        · exact Or.inr hx
      · rintro (⟨h1, fv, h2, h3⟩ | hx)
        · exact Or.inl ⟨h1.symm, fv, h2, h3⟩
        · exact Or.inr hx
    rw [hdep]
    exact or_assoc

theorem buildGraphsAux_nonempty (plan : List SeedingStep) :
    ∀ (g : DepGraphs), depsNonempty g.dependents →
    depsNonempty (buildGraphsAux plan g).dependents := by
  induction plan with
  | nil => intro g h; simpa [buildGraphsAux] using h
  | cons step rest ih =>
    intro g h
    rw [buildGraphsAux]
    exact ih _ (depsNonempty_stepAdd _ _ _ h)

theorem buildGraphs_dependents (plan : List SeedingStep) (t s : String) :
    memDependents (buildGraphs plan).dependents t s = true ↔ dependsOnB plan s t = true := by
  rw [buildGraphs, buildGraphsAux_dependents]
  simp [memDependents, jget]

theorem buildGraphs_nonempty (plan : List SeedingStep) :
    depsNonempty (buildGraphs plan).dependents := by
  rw [buildGraphs]
  exact buildGraphsAux_nonempty _ _ (fun t l h => by simp [jget] at h)

theorem eq_of_nodup_map {α β : Type} (l : List α) (f : α → β)
    (hnd : (l.map f).Nodup) (x y : α) (hx : x ∈ l) (hy : y ∈ l) (hf : f x = f y) :
    x = y := by
  induction l with
  | nil => cases hx
  | cons a as ih =>
    rw [List.map_cons, List.nodup_cons] at hnd
    rcases List.mem_cons.mp hx with h1 | h1 <;> rcases List.mem_cons.mp hy with h2 | h2
    · rw [h1, h2]
    · exfalso
      apply hnd.1
      rw [← h1, hf]
      exact List.mem_map_of_mem f h2
    · exfalso
      apply hnd.1
      rw [← h2, ← hf]
      exact List.mem_map_of_mem f h1
    · exact ih hnd.2 h1 h2

theorem jget_of_mem_nodup {β : Type} (m : List (String × β)) (k : String) (x : β)
    (hnd : (m.map Prod.fst).Nodup) (hmem : (k, x) ∈ m) : jget m k = some x := by
  induction m with
  | nil => cases hmem
  | cons p rest ih =>
    rw [List.map_cons, List.nodup_cons] at hnd
    rcases List.mem_cons.mp hmem with h | h
    · rw [← h]
      simp [jget]
    · by_cases hp : p.1 = k
      · exfalso
        apply hnd.1
        rw [hp]
        have : (k, x).1 ∈ rest.map Prod.fst := List.mem_map_of_mem Prod.fst h
        exact this
      · rw [jget, if_neg hp]
        exact ih hnd.2 h

theorem jget_jdel_self {β : Type} (m : List (String × β)) (k : String) :
    jget (jdel m k) k = none := by
  induction m with
  | nil => rfl
  | cons p rest ih =>
    simp only [jdel, List.filter_cons] at ih ⊢
    by_cases hp : p.1 = k
    · rw [if_neg (by simp [hp])]
      exact ih
    · rw [if_pos (by simp [hp]), jget, if_neg hp]
      exact ih

theorem removePlanField_cons (st : SeedingStep) (rest : List SeedingStep)
    (src fld : String) :
    removePlanField (st :: rest) src fld
      = if st.sobject == src then { st with fields := jdel st.fields fld } :: rest
        else st :: removePlanField rest src fld := by
  rw [removePlanField, updateFirst]
  rfl

theorem dependsOnB_cons (st : SeedingStep) (rest : List SeedingStep) (s t : String) :
    dependsOnB (st :: rest) s t
      = (((st.sobject == s) && st.fields.any (fun fv => parseRefTarget fv.2 == some t))
          || dependsOnB rest s t) := by
  simp [dependsOnB]

theorem dependsOnB_true_iff (plan : List SeedingStep) (s t : String) :
    dependsOnB plan s t = true ↔
      ∃ st ∈ plan, st.sobject = s ∧ ∃ fv ∈ st.fields, parseRefTarget fv.2 = some t := by
  unfold dependsOnB
  simp only [List.any_eq_true, Bool.and_eq_true, beq_iff_eq]

theorem dependsOnB_not_mem (plan : List SeedingStep) (s t : String)
    (h : s ∉ plan.map (fun st => st.sobject)) : dependsOnB plan s t = false := by
  rw [Bool.eq_false_iff]
  rw [Ne, dependsOnB_true_iff]
  rintro ⟨st, hst, h1, -⟩
  exact h (h1 ▸ List.mem_map_of_mem _ hst)

theorem updateFirst_map_eq {α β : Type} (l : List α) (p : α → Bool) (f : α → α)
    (g : α → β) (hg : ∀ x, g (f x) = g x) : (updateFirst l p f).map g = l.map g := by
  induction l with
  | nil => rfl
  | cons x xs ih =>
    rw [updateFirst]
    by_cases h : p x
    · rw [if_pos h]
      simp [hg]
    · rw [if_neg h]
      simp [ih]

theorem removePlanField_sobjects (plan : List SeedingStep) (src fld : String) :
    (removePlanField plan src fld).map (fun st => st.sobject)
      = plan.map (fun st => st.sobject) :=
  updateFirst_map_eq plan _ _ _ (fun _ => rfl)

theorem updateFirst_mem {α : Type} (l : List α) (p : α → Bool) (f : α → α) :
    ∀ x ∈ updateFirst l p f, x ∈ l ∨ ∃ y ∈ l, x = f y := by
  induction l with
  | nil =>
    intro x hx
    cases hx
  | cons a as ih =>
    intro x hx
    rw [updateFirst] at hx
    by_cases h : p a
    · rw [if_pos h] at hx
      rcases List.mem_cons.mp hx with h1 | h1
      · exact Or.inr ⟨a, List.mem_cons_self _ _, h1⟩
      · exact Or.inl (List.mem_cons_of_mem _ h1)
    · rw [if_neg h] at hx
      rcases List.mem_cons.mp hx with h1 | h1
      · exact Or.inl (h1 ▸ List.mem_cons_self _ _)
      · rcases ih x h1 with h2 | ⟨y, hy, h3⟩
        · exact Or.inl (List.mem_cons_of_mem _ h2)
        · exact Or.inr ⟨y, List.mem_cons_of_mem _ hy, h3⟩

theorem dependsOnB_remove_other :
    ∀ (plan : List SeedingStep) (src fld s t : String), s ≠ src →
    dependsOnB (removePlanField plan src fld) s t = dependsOnB plan s t := by
  intro plan
  induction plan with
  | nil =>
    intro src fld s t _
    rfl
  | cons st rest ih =>
    intro src fld s t hne
    rw [removePlanField_cons]
    by_cases h : st.sobject = src
    · rw [if_pos (by simp [h])]
      rw [dependsOnB_cons, dependsOnB_cons]
      have hb : (st.sobject == s) = false := by
        rw [beq_eq_false_iff_ne, h]
        exact Ne.symm hne
      simp [hb]
    · rw [if_neg (by simp [h])]
      rw [dependsOnB_cons, dependsOnB_cons, ih src fld s t hne]

theorem dependsOnB_remove_src_tgt :
    ∀ (plan : List SeedingStep) (src fld tgt : String),
    (plan.map (fun st => st.sobject)).Nodup →
    (∀ st ∈ plan, st.sobject = src →
      ∀ fv ∈ st.fields, parseRefTarget fv.2 = some tgt → fv.1 = fld) →
    dependsOnB (removePlanField plan src fld) src tgt = false := by
  intro plan
  induction plan with
  | nil =>
    intro src fld tgt _ _
    rfl
  | cons st rest ih =>
    intro src fld tgt hsnd honly
    rw [List.map_cons, List.nodup_cons] at hsnd
    rw [removePlanField_cons]
    by_cases h : st.sobject = src
    · rw [if_pos (by simp [h])]
      rw [Bool.eq_false_iff, Ne, dependsOnB_true_iff]
      rintro ⟨st', hst', h1, fv, hfv, htar⟩
      rcases List.mem_cons.mp hst' with he | he
      · have hfv' : fv ∈ st.fields ∧ fv.1 ≠ fld := by
          rw [he] at hfv
          simp only [jdel, List.mem_filter, decide_eq_true_eq] at hfv
          exact hfv
        exact hfv'.2 (honly st (List.mem_cons_self _ _) h fv hfv'.1 htar)
      · apply hsnd.1
        rw [h, ← h1]
        exact List.mem_map_of_mem _ he
    · rw [if_neg (by simp [h])]
      rw [dependsOnB_cons]
      have hb : (st.sobject == src) = false := by
        rw [beq_eq_false_iff_ne]
        exact h
      rw [hb]
      simp only [Bool.false_and, Bool.false_or]
      exact ih src fld tgt hsnd.2 (fun st0 hst0 => honly st0 (List.mem_cons_of_mem _ hst0))

theorem dependsOnB_remove_src_other :
    ∀ (plan : List SeedingStep) (src fld tgt t : String), t ≠ tgt →
    (∀ st ∈ plan, (st.fields.map (fun fv => fv.1)).Nodup) →
    (∀ st ∈ plan, st.sobject = src → ∀ v, jget st.fields fld = some v →
        parseRefTarget v = some tgt) →
    dependsOnB (removePlanField plan src fld) src t = dependsOnB plan src t := by
  intro plan
  induction plan with
  | nil =>
    intro src fld tgt t _ _ _
    rfl
  | cons st rest ih =>
    intro src fld tgt t hne hfnd hfld
    rw [removePlanField_cons]
    by_cases h : st.sobject = src
    · rw [if_pos (by simp [h])]
      rw [dependsOnB_cons, dependsOnB_cons]
      have hany : (jdel st.fields fld).any (fun fv => parseRefTarget fv.2 == some t)
          = st.fields.any (fun fv => parseRefTarget fv.2 == some t) := by
        rw [Bool.eq_iff_iff]
        simp only [List.any_eq_true, jdel, List.mem_filter, decide_eq_true_eq,
          beq_iff_eq]
        constructor
        · rintro ⟨fv, ⟨hfv, -⟩, htar⟩
          exact ⟨fv, hfv, htar⟩
        · rintro ⟨fv, hfv, htar⟩
          refine ⟨fv, ⟨hfv, ?_⟩, htar⟩
          intro hkey
          have hget : jget st.fields fld = some fv.2 := by
            have := jget_of_mem_nodup st.fields fld fv.2
              (hfnd st (List.mem_cons_self _ _)) (by rw [← hkey]; exact hfv)
            exact this
          have := hfld st (List.mem_cons_self _ _) h fv.2 hget
          rw [htar] at this
          exact hne (Option.some.inj this)
      rw [hany]
    · rw [if_neg (by simp [h])]
      rw [dependsOnB_cons, dependsOnB_cons]
      rw [ih src fld tgt t hne (fun st0 hst0 => hfnd st0 (List.mem_cons_of_mem _ hst0))
        (fun st0 hst0 => hfld st0 (List.mem_cons_of_mem _ hst0))]

theorem mem_of_jget_some {β : Type} (m : List (String × β)) (k : String) (x : β)
    (h : jget m k = some x) : (k, x) ∈ m := by
  induction m with
  | nil => cases h
  | cons p rest ih =>
    rw [jget] at h
    by_cases hp : p.1 = k
    · rw [if_pos hp] at h
      have hpx : p = (k, x) := by
        cases p
        simp only [Prod.mk.injEq]
        exact ⟨hp, Option.some.inj h⟩
      exact hpx ▸ List.mem_cons_self _ _
    · rw [if_neg hp] at h
      exact List.mem_cons_of_mem _ (ih h)

theorem tracked_after_removal (plan : List SeedingStep) (g : DepGraphs)
    (src fld tgt : String)
    (hinv : ∀ t s, memDependents g.dependents t s = true ↔ dependsOnB plan s t = true)
    (hne : depsNonempty g.dependents)
    (hsnd : (plan.map (fun st => st.sobject)).Nodup)
    (hfnd : ∀ st ∈ plan, (st.fields.map (fun fv => fv.1)).Nodup)
    (hexists : ∃ st ∈ plan, st.sobject = src ∧
        ∃ v, jget st.fields fld = some v ∧ parseRefTarget v = some tgt)
    (honly : ∀ st ∈ plan, st.sobject = src →
        ∀ fv ∈ st.fields, parseRefTarget fv.2 = some tgt → fv.1 = fld) :
    (∀ t s, memDependents (applyRemoval plan g (src, fld, tgt)).2.dependents t s = true
        ↔ dependsOnB (applyRemoval plan g (src, fld, tgt)).1 s t = true)
    ∧ depsNonempty (applyRemoval plan g (src, fld, tgt)).2.dependents := by
  have hplan1 : (applyRemoval plan g (src, fld, tgt)).1 = removePlanField plan src fld := rfl
  obtain ⟨st0, hst0, hsrc0, v0, hget0, htar0⟩ := hexists
  have hfldAll : ∀ st ∈ plan, st.sobject = src → ∀ v, jget st.fields fld = some v →
      parseRefTarget v = some tgt := by
    intro st hst hsrc v hget
    have heq : st = st0 :=
      eq_of_nodup_map plan (fun st => st.sobject) hsnd st st0 hst hst0
        (by show st.sobject = st0.sobject; rw [hsrc, hsrc0])
    rw [heq] at hget
    rw [hget0] at hget
    exact Option.some.inj hget ▸ htar0
  have hdep0 : dependsOnB plan src tgt = true := by
    rw [dependsOnB_true_iff]
    exact ⟨st0, hst0, hsrc0, (fld, v0), mem_of_jget_some _ _ _ hget0, htar0⟩
  have hmemtgt : memDependents g.dependents tgt src = true := (hinv tgt src).mpr hdep0
  rcases hjt : jget g.dependents tgt with _ | l
  · exfalso
    rw [memDependents_true_iff, hjt] at hmemtgt
    simp at hmemtgt
  · have happ : (applyRemoval plan g (src, fld, tgt)).2.dependents
        = if (l.filter (fun x => x ≠ src)).length = 0 then
            jdel (jset g.dependents tgt (l.filter (fun x => x ≠ src))) tgt
          else jset g.dependents tgt (l.filter (fun x => x ≠ src)) := by
      simp [applyRemoval, hjt, jget_jset_self]
    have hmem_iff : ∀ s : String, s ∈ l.filter (fun x => x ≠ src) ↔ (s ∈ l ∧ s ≠ src) := by
      intro s
      simp [List.mem_filter]
    have hmemd : ∀ s : String, memDependents g.dependents tgt s = true ↔ s ∈ l := by
      intro s
      rw [memDependents_true_iff, hjt]
      simp
    have hLt : ∀ s : String,
        (memDependents (applyRemoval plan g (src, fld, tgt)).2.dependents tgt s = true
          ↔ s ∈ l.filter (fun x => x ≠ src)) := by
      intro s
      rw [happ]
      by_cases hlen : (l.filter (fun x => x ≠ src)).length = 0
      · rw [if_pos hlen]
        have hnil : l.filter (fun x => x ≠ src) = [] := List.length_eq_zero.mp hlen
        rw [memDependents_true_iff, jget_jdel_self]
        constructor
        · intro h
          simp at h
        · intro h
          rw [hnil] at h
          cases h
      · rw [if_neg hlen]
        rw [memDependents_true_iff, jget_jset_self]
        simp
    have hLo : ∀ t : String, t ≠ tgt → ∀ s : String,
        (memDependents (applyRemoval plan g (src, fld, tgt)).2.dependents t s = true
          ↔ memDependents g.dependents t s = true) := by
      intro t ht s
      rw [happ]
      by_cases hlen : (l.filter (fun x => x ≠ src)).length = 0
      · rw [if_pos hlen]
        rw [memDependents_true_iff, jget_jdel_ne _ _ _ ht, jget_jset_ne _ _ _ _ ht,
          ← memDependents_true_iff]
      · rw [if_neg hlen]
        rw [memDependents_true_iff, jget_jset_ne _ _ _ _ ht, ← memDependents_true_iff]
    constructor
    · intro t s
      by_cases ht : t = tgt
      · by_cases hs : s = src
        · rw [ht, hs, hLt src, hplan1, dependsOnB_remove_src_tgt plan src fld tgt hsnd honly]
          simp [hmem_iff]
        · rw [ht, hLt s, hplan1, dependsOnB_remove_other plan src fld s tgt hs,
            ← hinv tgt s, hmemd s, hmem_iff s]
          simp [hs]
      · by_cases hs : s = src
        · rw [hs, hLo t ht src, hplan1,
            dependsOnB_remove_src_other plan src fld tgt t ht hfnd hfldAll, hinv t src]
        · rw [hLo t ht s, hplan1, dependsOnB_remove_other plan src fld s t hs, hinv t s]
    · intro t l'' hget
      rw [happ] at hget
      by_cases hlen : (l.filter (fun x => x ≠ src)).length = 0
      · rw [if_pos hlen] at hget
        by_cases ht : t = tgt
        · subst ht
          rw [jget_jdel_self] at hget
          cases hget
        · rw [jget_jdel_ne _ _ _ ht, jget_jset_ne _ _ _ _ ht] at hget
          exact hne t l'' hget
      · rw [if_neg hlen] at hget
        by_cases ht : t = tgt
        · subst ht
          rw [jget_jset_self] at hget
          rw [← Option.some.inj hget]
          intro hnil
          rw [hnil] at hlen
          exact hlen rfl
        · rw [jget_jset_ne _ _ _ _ ht] at hget
          exact hne t l'' hget

theorem applyRemovals_cons (plan : List SeedingStep) (g : DepGraphs) (r : Removal)
    (rest : List Removal) :
    applyRemovals plan g (r :: rest)
      = applyRemovals (applyRemoval plan g r).1 (applyRemoval plan g r).2 rest := rfl

theorem tracked_after_removals :
    ∀ (removals : List Removal) (plan : List SeedingStep) (g : DepGraphs),
    ValidRemovals plan removals →
    (plan.map (fun st => st.sobject)).Nodup →
    (∀ st ∈ plan, (st.fields.map (fun fv => fv.1)).Nodup) →
    (∀ t s, memDependents g.dependents t s = true ↔ dependsOnB plan s t = true) →
    depsNonempty g.dependents →
    (∀ t s, memDependents (applyRemovals plan g removals).2.dependents t s = true
        ↔ dependsOnB (applyRemovals plan g removals).1 s t = true)
    ∧ depsNonempty (applyRemovals plan g removals).2.dependents := by
  intro removals
  induction removals with
  | nil =>
    intro plan g _ _ _ hinv hne
    exact ⟨hinv, hne⟩
  | cons r rest ih =>
    intro plan g hvalid hsnd hfnd hinv hne
    cases hvalid with
    | cons _ src fld tgt _ hexists honly hrest =>
      have hstep := tracked_after_removal plan g src fld tgt hinv hne hsnd hfnd hexists honly
      rw [applyRemovals_cons]
      have hplan1 : (applyRemoval plan g (src, fld, tgt)).1 = removePlanField plan src fld := rfl
      have hsnd' : ((applyRemoval plan g (src, fld, tgt)).1.map (fun st => st.sobject)).Nodup := by
        rw [hplan1, removePlanField_sobjects]
        exact hsnd
      have hfnd' : ∀ st ∈ (applyRemoval plan g (src, fld, tgt)).1,
          (st.fields.map (fun fv => fv.1)).Nodup := by
        intro st hst
        rw [hplan1, removePlanField] at hst
        rcases updateFirst_mem _ _ _ st hst with h | ⟨y, hy, hfy⟩
        · exact hfnd st h
        · rw [hfy]
          have hsub : ((jdel y.fields fld).map (fun fv => fv.1)).Sublist
              (y.fields.map (fun fv => fv.1)) :=
            List.Sublist.map _ (List.filter_sublist _)
          exact List.Nodup.sublist hsub (hfnd y hy)
      have hrest' : ValidRemovals (applyRemoval plan g (src, fld, tgt)).1 rest := by
        rw [hplan1]
        exact hrest
      exact ih _ _ hrest' hsnd' hfnd' hstep.1 hstep.2

theorem plan_fields_subset_removals :
    ∀ (removals : List Removal) (plan : List SeedingStep) (g : DepGraphs),
    ∀ st' ∈ (applyRemovals plan g removals).1, ∃ st ∈ plan,
      st'.sobject = st.sobject ∧ ∀ fv ∈ st'.fields, fv ∈ st.fields := by
  intro removals
  induction removals with
  | nil =>
    intro plan g st' h
    exact ⟨st', h, rfl, fun fv hfv => hfv⟩
  | cons r rest ih =>
    intro plan g st' h
    rw [applyRemovals_cons] at h
    obtain ⟨st1, hst1, he1, hf1⟩ := ih _ _ st' h
    have hplan1 : (applyRemoval plan g r).1 = removePlanField plan r.1 r.2.1 := rfl
    rw [hplan1, removePlanField] at hst1
    rcases updateFirst_mem _ _ _ st1 hst1 with h2 | ⟨y, hy, hfy⟩
    · exact ⟨st1, h2, he1, hf1⟩
    · refine ⟨y, hy, ?_, ?_⟩
      · rw [he1, hfy]
      · intro fv hfv
        have hmem := hf1 fv hfv
        rw [hfy] at hmem
        exact (List.mem_filter.mp hmem).1

theorem targetedByOther_assign (plan : List SeedingStep) (g : DepGraphs) (t : String) :
    targetedByOther (assignSaveRefs plan g) t = targetedByOther plan t := by
  unfold targetedByOther assignSaveRefs
  rw [List.any_map]
  rfl

/-- C6 counterexample: with parallel edges `A --F1--> B`, `A --F2--> B` and
`B --G--> A`, resolving the selected cyclic edge `(A, F1, B)` deletes `A`
wholesale from `B`'s dependent set although the parallel edge `F2` survives
in `A`'s fields; the subsequent assignment therefore leaves `B.saveRefs`
false even though another step still has a surviving reference edge
targeting `B` — refuting the claimed equivalence. -/
theorem C6_counterexample :
    ((planWithSaveRefs [parStepA, parStepB] [("A", "F1", "B")]).map
        (fun st => (st.sobject, st.saveRefs)))
      = [("A", true), ("B", false)]
    ∧ targetedByOther (planWithSaveRefs [parStepA, parStepB] [("A", "F1", "B")]) "B"
        = true := by
  exact ⟨rfl, rfl⟩

/-- C6 (amended): after cycle resolution and `saveRefs` assignment, a step's
`saveRefs` equals "some other step has a surviving reference edge targeting
its object type" provided that: step object types are unique, field names
within a step are unique, no step references its own object type, and every
selected removal names an existing edge that is the *only* edge from its
source to its target (no parallel edges).  Without the last proviso the
equivalence fails (see the counterexample): deleting a cycle edge drops the
whole dependent-set entry even when a parallel edge survives. -/
theorem C6_amended (plan : List SeedingStep) (removals : List Removal)
    (hvalid : ValidRemovals plan removals)
    (hsnd : (plan.map (fun st => st.sobject)).Nodup)
    (hfnd : ∀ st ∈ plan, (st.fields.map (fun fv => fv.1)).Nodup)
    (hself : ∀ st ∈ plan, ∀ fv ∈ st.fields, parseRefTarget fv.2 ≠ some st.sobject) :
    ∀ step ∈ planWithSaveRefs plan removals,
      step.saveRefs = targetedByOther (planWithSaveRefs plan removals) step.sobject := by
  intro step hstep
  obtain ⟨hinv', hne'⟩ := tracked_after_removals removals plan (buildGraphs plan) hvalid
    hsnd hfnd (fun t s => buildGraphs_dependents plan t s) (buildGraphs_nonempty plan)
  have hself' : ∀ st' ∈ (applyRemovals plan (buildGraphs plan) removals).1,
      ∀ fv ∈ st'.fields, parseRefTarget fv.2 ≠ some st'.sobject := by
    intro st' hst' fv hfv
    obtain ⟨st0, hst0, hsov, hsub⟩ :=
      plan_fields_subset_removals removals plan (buildGraphs plan) st' hst'
    rw [hsov]
    exact hself st0 hst0 fv (hsub fv hfv)
  have hpw : planWithSaveRefs plan removals
      = assignSaveRefs (applyRemovals plan (buildGraphs plan) removals).1
          (applyRemovals plan (buildGraphs plan) removals).2 := rfl
  rw [hpw] at hstep ⊢
  rw [assignSaveRefs] at hstep
  obtain ⟨st, hst, hmap⟩ := List.mem_map.mp hstep
  rw [← hmap]
  rw [targetedByOther_assign]
  show (jget (applyRemovals plan (buildGraphs plan) removals).2.dependents st.sobject).isSome
      = targetedByOther (applyRemovals plan (buildGraphs plan) removals).1 st.sobject
  rw [Bool.eq_iff_iff]
  constructor
  · intro hsome
    rcases ho : jget (applyRemovals plan (buildGraphs plan) removals).2.dependents
        st.sobject with _ | lst
    · rw [ho] at hsome
      cases hsome
    · have hnil := hne' st.sobject lst ho
      rcases lst with _ | ⟨a, as⟩
      · exact absurd rfl hnil
      · have hmema : memDependents (applyRemovals plan (buildGraphs plan) removals).2.dependents
            st.sobject a = true := by
          rw [memDependents_true_iff, ho]
          simp
        have hdep := (hinv' st.sobject a).mp hmema
        rw [dependsOnB_true_iff] at hdep
        obtain ⟨st', hst', he, fv, hfv, htar⟩ := hdep
        unfold targetedByOther
        simp only [List.any_eq_true, Bool.and_eq_true, decide_eq_true_eq, beq_iff_eq]
        refine ⟨st', hst', ?_, fv, hfv, htar⟩
        intro hh
        exact hself' st' hst' fv hfv (by rw [htar, hh])
  · intro hto
    unfold targetedByOther at hto
    simp only [List.any_eq_true, Bool.and_eq_true, decide_eq_true_eq, beq_iff_eq] at hto
    obtain ⟨st', hst', hne'', fv, hfv, htar⟩ := hto
    have hdep : dependsOnB (applyRemovals plan (buildGraphs plan) removals).1
        st'.sobject st.sobject = true := by
      rw [dependsOnB_true_iff]
      exact ⟨st', hst', rfl, fv, hfv, htar⟩
    have hmem := (hinv' st.sobject st'.sobject).mpr hdep
    rw [memDependents_true_iff] at hmem
    rcases ho : jget (applyRemovals plan (buildGraphs plan) removals).2.dependents
        st.sobject with _ | lst
    · rw [ho] at hmem
      simp at hmem
    · simp [ho]

/-- C6 witness: the amended theorem applied to the Account/Contact plan with
no removals: the Account step's computed `saveRefs` (true) coincides with
"some other step targets Account". -/
theorem C6_amended_witness :
    ((⟨"Account", 1, true, [("Name", FieldValue.str "Acme")]⟩ : SeedingStep)
        ∈ planWithSaveRefs [accountOnlyStep, contactStep] [])
    ∧ (⟨"Account", 1, true, [("Name", FieldValue.str "Acme")]⟩ : SeedingStep).saveRefs
        = targetedByOther (planWithSaveRefs [accountOnlyStep, contactStep] []) "Account" :=
  ⟨by decide,
   C6_amended [accountOnlyStep, contactStep] [] (ValidRemovals.nil _) (by decide)
     (by decide) (by decide)
     ⟨"Account", 1, true, [("Name", FieldValue.str "Acme")]⟩ (by decide)⟩

end SfSeeder
